import Mathlib

/-!
# SNAP relational table engine (`snap-core/table.h`)

A shallow embedding of the inline code of `table.h`: the policy-driven
reduction `TTable::AggregateVector`, the grouping helper
`TTable::UpdateGrouping`, the graph-hint setters `SetSrcCol` / `SetDstCol`,
the by-name accessors `GetColType`, `GetIntVal`, `GetFltVal`, `GetStrVal`,
`GetColIdx`, the iterator factories `BegRI`, `EndRI`, `BegRIWR`, `EndRIWR`,
the table-sequence iterator `TTableIterator`, the copy constructor
`TTable(const TTable&)` and the node-numbering helper `CheckAndAddFltNode`.

Vectors (`TVec`) are lists, hash tables (`THash`) are insertion-ordered
association lists, and an operation that can trip an assertion or throw
returns an `Except TErr`.

The member functions that `table.h` only declares (row appends and
removals, iterator advance and `RemoveNext`, `Unique`, `Join`) are modelled
from the design document; each such definition says so in its comment.
-/

namespace Snap

/-! ## Base types -/

/-- Failure raised by an operation: an index outside a vector, a key absent
from a hash table, or an exception thrown with a message. -/
inductive TErr where
  | outOfBounds
  | noSuchKey
  | thrown (msg : String)
  deriving DecidableEq, Repr

deriving instance DecidableEq for Except

/-- Integer attribute values (`TInt`), taken as mathematical integers; the
reduction below is generic in the element type and its addition. -/
abbrev TInt := Int

/-- Float attribute values (`TFlt`); only equality and order of the values
are used here, so they are represented by rationals. -/
abbrev TFlt := Rat

/-- String attribute values (`TStr`). -/
abbrev TStr := String

/-- Vector of integers (`TIntV`). -/
abbrev TIntV := List TInt

/-- Vector of floats (`TFltV`). -/
abbrev TFltV := List TFlt

/-- Vector of strings (`TStrV`). -/
abbrev TStrV := List TStr

/-- Grouping key `TPair<TIntV, TFltV>`: integer and string attributes in the
first component, float attributes in the second. -/
abbrev TGroupKey := TIntV × TFltV

/-- Possible policies for aggregating node attributes. -/
inductive TAttrAggr where
  | aaMin | aaMax | aaFirst | aaLast | aaMean | aaMedian | aaSum | aaCount
  deriving DecidableEq, Repr

open TAttrAggr

/-- Modelled from the spec: the attribute kinds of `TAttrType`, whose
declaration is outside `table.h` (kind ∈ {Integer, Float, String}). -/
inductive TAttrType where
  | atInt | atFlt | atStr
  deriving DecidableEq, Repr

/-! ## `TVec` -/

namespace TVec

/-- Number of elements, `TVec::Len`. -/
def Len {T : Type} (V : List T) : TInt := (V.length : Int)

/-- Modelled from the spec: `TVec::operator[]`, whose definition is outside
`table.h`. An access outside `0 .. Len-1` does not yield a value (the
empty-input / out-of-range failure of the error model); inside the range it
yields the stored element. -/
def get {T : Type} (V : List T) (i : TInt) : Except TErr T :=
  if 0 ≤ i then
    match V[i.toNat]? with
    | some x => .ok x
    | none => .error .outOfBounds
  else .error .outOfBounds

/-- Append at the end, `TVec::Add`. -/
def Add {T : Type} (V : List T) (x : T) : List T := V ++ [x]

/-- Modelled from the spec: `TVec::Sort` with its default ascending order,
whose definition is outside `table.h` ("sorts the group's values"). -/
def SortAsc {T : Type} [LinearOrder T] (V : List T) : List T :=
  V.insertionSort (fun a b => a ≤ b)

end TVec

/-! ## `TTable::AggregateVector` -/

/-- The loop `for (TInt i = 1; i < V.Len(); i++) { Res = body(Res, V[i]); }`
with `n` iterations left and the counter at `i`. -/
def aggrLoop {T : Type} (V : List T) (body : T → T → T) : Nat → TInt → T → Except TErr T
  | 0, _, Res => .ok Res
  | n + 1, i, Res => do
    let x ← TVec.get V i
    aggrLoop V body n (i + 1) (body Res x)

/-- Number of iterations of `for (TInt i = 1; i < V.Len(); i++)`. -/
def aggrIters {T : Type} (V : List T) : Nat := V.length - 1

/-- Aggregate vector into a single scalar value according to a policy. The
first component is the returned value (or the failure), the second the
caller's vector after the call (`V` is taken by reference and the median
case sorts it). The statements after the `switch` are not reached for a
value of the enumeration. -/
def AggregateVector {T : Type} [LinearOrder T] [Add T] (V : List T) (Policy : TAttrAggr) :
    Except TErr T × List T :=
  match Policy with
  | aaMin =>
    (do let Res ← TVec.get V 0
        aggrLoop V (fun Res x => if x < Res then x else Res) (aggrIters V) 1 Res, V)
  | aaMax =>
    (do let Res ← TVec.get V 0
        aggrLoop V (fun Res x => if x > Res then x else Res) (aggrIters V) 1 Res, V)
  | aaFirst => (TVec.get V 0, V)
  | aaLast => (TVec.get V (TVec.Len V - 1), V)
  | aaSum =>
    (do let Res ← TVec.get V 0
        aggrLoop V (fun Res x => Res + x) (aggrIters V) 1 Res, V)
  | aaMean =>
    -- the division `Res = Res / V.Len()` is commented out in the source
    (do let Res ← TVec.get V 0
        aggrLoop V (fun Res x => Res + x) (aggrIters V) 1 Res, V)
  | aaMedian =>
    let V1 := TVec.SortAsc V
    (TVec.get V1 (TVec.Len V1 / 2), V1)
  | aaCount =>
    -- "Code should never reach here"
    (TVec.get V 0, V)

/-! ## `THash` -/

/-- Modelled from the spec: the `THash` container, whose definition is outside
`table.h`: a mapping from keys to data, kept as the list of its key/datum
entries in insertion order. -/
structure THash (K D : Type) where
  KeyDatV : List (K × D)
  deriving DecidableEq, Repr

namespace THash

/-- Datum of the first entry whose key is `Key`. -/
def lookup {K D : Type} [DecidableEq K] (Key : K) : List (K × D) → Option D
  | [] => none
  | e :: es => if e.1 = Key then some e.2 else lookup Key es

/-- Overwrite the datum of the first entry whose key is `Key`. -/
def replace {K D : Type} [DecidableEq K] (Key : K) (Dat : D) : List (K × D) → List (K × D)
  | [] => []
  | e :: es => if e.1 = Key then (e.1, Dat) :: es else e :: replace Key Dat es

/-- The hash table with no entries. -/
def empty {K D : Type} : THash K D := ⟨[]⟩

/-- Number of entries, `THash::Len`. -/
def Len {K D : Type} (H : THash K D) : TInt := (H.KeyDatV.length : Int)

/-- Membership test `THash::IsKey`. -/
def IsKey {K D : Type} [DecidableEq K] (H : THash K D) (Key : K) : Bool :=
  (lookup Key H.KeyDatV).isSome

/-- Modelled from the spec: `THash::GetDat`, whose definition is outside
`table.h`. Looking up a key that is absent does not yield a datum
("referencing a column name absent from the schema fails with a schema
error"). -/
def GetDat {K D : Type} [DecidableEq K] (H : THash K D) (Key : K) : Except TErr D :=
  match lookup Key H.KeyDatV with
  | some d => .ok d
  | none => .error .noSuchKey

/-- Store through the reference returned by `GetDat(Key)`. -/
def SetDat {K D : Type} [DecidableEq K] (H : THash K D) (Key : K) (Dat : D) : THash K D :=
  ⟨replace Key Dat H.KeyDatV⟩

/-- Insert-or-overwrite `THash::AddDat(Key, Dat)`: a new key is added after
the existing entries. -/
def AddDat {K D : Type} [DecidableEq K] (H : THash K D) (Key : K) (Dat : D) : THash K D :=
  if H.IsKey Key then ⟨replace Key Dat H.KeyDatV⟩ else ⟨H.KeyDatV ++ [(Key, Dat)]⟩

end THash

/-! ## `TTable::UpdateGrouping` -/

/-- Template for utility function to update a grouping hash map. -/
def UpdateGrouping {T : Type} [DecidableEq T] (Grouping : THash T TIntV) (Key : T) (Val : TInt) :
    Except TErr (THash T TIntV) :=
  if Grouping.IsKey Key then do
    let Group ← Grouping.GetDat Key
    pure (Grouping.SetDat Key (TVec.Add Group Val))
  else
    let NewGroup : TIntV := TVec.Add [] Val
    pure (Grouping.AddDat Key NewGroup)

/-- A finite sequence of `UpdateGrouping(Grouping, Key, Val)` calls, one per
`(Key, Val)` pair, applied from left to right. -/
def UpdateGroupingSeq {T : Type} [DecidableEq T] :
    THash T TIntV → List (T × TInt) → Except TErr (THash T TIntV)
  | Grouping, [] => .ok Grouping
  | Grouping, kv :: rest => do
    let G1 ← UpdateGrouping Grouping kv.1 kv.2
    UpdateGroupingSeq G1 rest

/-- Row indices inserted under `Key` by the pairs of `ins`, in insertion
order. -/
def bucketRows {T : Type} [DecidableEq T] (Key : T) (ins : List (T × TInt)) : TIntV :=
  (ins.filter (fun kv => kv.1 = Key)).map Prod.snd

/-- Total number of row indices stored in the buckets of a grouping. -/
def bucketTotal {T : Type} (G : THash T TIntV) : Nat :=
  (G.KeyDatV.map (fun e => e.2.length)).sum

/-- Relation between a grouping and the insertions that produced it: keys are
stored once, the bucket of a key holds exactly the rows inserted under it (and
a key without rows has no bucket), and the buckets hold as many rows as were
inserted. -/
def GroupingInv {T : Type} [DecidableEq T] (G : THash T TIntV) (ins : List (T × TInt)) : Prop :=
  (G.KeyDatV.map Prod.fst).Nodup ∧
    (∀ k, THash.lookup k G.KeyDatV =
      if bucketRows k ins = [] then none else some (bucketRows k ins)) ∧
    bucketTotal G = ins.length

/-! ## `TTable` -/

/-- A table schema is a vector of pairs (attribute name, attribute type). -/
abbrev Schema := List (TStr × TAttrType)

/-- Modelled from the spec: the string pool of the execution context
(`TStrHash<TInt, TBigStrPool>`, defined outside `table.h`): the string of
code `i` is the `i`-th entry. -/
structure TTableContext where
  StringVals : List TStr
  deriving DecidableEq, Repr

/-- String of an interned code, `TStrHash::GetKey`. -/
def TTableContext.GetKey (C : TTableContext) (KeyId : TInt) : Except TErr TStr :=
  TVec.get C.StringVals KeyId

/-- Data members of `TTable` (the reference count `CRef` is left out). -/
structure TTable where
  Name : TStr
  Context : TTableContext
  S : Schema
  NumRows : TInt
  NumValidRows : TInt
  FirstValidRow : TInt
  LastValidRow : TInt
  Next : TIntV
  IntCols : List TIntV
  FltCols : List TFltV
  StrColMaps : List TIntV
  ColTypeMap : THash TStr (TAttrType × TInt)
  IdColName : TStr
  RowIdMap : THash TInt TInt
  GroupStmtNames : THash TStr (TStrV × Bool)
  GroupIDMapping : THash (TStrV × Bool) (THash TInt TGroupKey)
  GroupMapping : THash (TStrV × Bool) (THash TGroupKey TIntV)
  SrcCol : TStr
  DstCol : TStr
  EdgeAttrV : TStrV
  SrcNodeAttrV : TStrV
  DstNodeAttrV : TStrV
  CommonNodeAttrs : List (TStr × TStr × TStr)
  RowIdBuckets : List TIntV
  CurrBucket : TInt
  AggrPolicy : TAttrAggr
  deriving DecidableEq, Repr

namespace TTable

/-- Get the value of integer attribute `ColName` at row `RowIdx`
("no type checking. assuming ColName actually refers to the right type"). -/
def GetIntVal (T : TTable) (ColName : TStr) (RowIdx : TInt) : Except TErr TInt := do
  let Dat ← T.ColTypeMap.GetDat ColName
  let Col ← TVec.get T.IntCols Dat.2
  TVec.get Col RowIdx

/-- Get the value of float attribute `ColName` at row `RowIdx`. -/
def GetFltVal (T : TTable) (ColName : TStr) (RowIdx : TInt) : Except TErr TFlt := do
  let Dat ← T.ColTypeMap.GetDat ColName
  let Col ← TVec.get T.FltCols Dat.2
  TVec.get Col RowIdx

/-- Get the value in the string column with id `ColIdx` at row `RowIdx`
(the overload `GetStrVal(TInt ColIdx, TInt RowIdx)`). -/
def GetStrValIdx (T : TTable) (ColIdx : TInt) (RowIdx : TInt) : Except TErr TStr := do
  let Col ← TVec.get T.StrColMaps ColIdx
  let KeyId ← TVec.get Col RowIdx
  T.Context.GetKey KeyId

/-- Get the value of string attribute `ColName` at row `RowIdx`. -/
def GetStrVal (T : TTable) (ColName : TStr) (RowIdx : TInt) : Except TErr TStr := do
  let Dat ← T.ColTypeMap.GetDat ColName
  T.GetStrValIdx Dat.2 RowIdx

/-- Get type of column `ColName`. -/
def GetColType (T : TTable) (ColName : TStr) : Except TErr TAttrType := do
  let Dat ← T.ColTypeMap.GetDat ColName
  pure Dat.1

/-- Get the name of the column to be used as src nodes in the graph. -/
def GetSrcCol (T : TTable) : TStr := T.SrcCol

/-- Get the name of the column to be used as dst nodes in the graph. -/
def GetDstCol (T : TTable) : TStr := T.DstCol

/-- Set the name of the column to be used as src nodes in the graph. The
first component is the outcome (an exception when `Src` is no column), the
second the table after the call. -/
def SetSrcCol (T : TTable) (Src : TStr) : Except TErr Unit × TTable :=
  if !T.ColTypeMap.IsKey Src then (.error (.thrown (Src ++ ": no such column")), T)
  else (.ok (), { T with SrcCol := Src })

/-- Set the name of the column to be used as dst nodes in the graph. The
first component is the outcome (an exception when `Dst` is no column), the
second the table after the call. -/
def SetDstCol (T : TTable) (Dst : TStr) : Except TErr Unit × TTable :=
  if !T.ColTypeMap.IsKey Dst then (.error (.thrown (Dst ++ ": no such column")), T)
  else (.ok (), { T with DstCol := Dst })

end TTable

/-- A table with two columns, the float column `f` and the integer column
`i`, each the first of its kind, holding one row `(1/2, 42)`. -/
def exampleTable : TTable where
  Name := "t"
  Context := ⟨[]⟩
  S := [("f", .atFlt), ("i", .atInt)]
  NumRows := 1
  NumValidRows := 1
  FirstValidRow := 0
  LastValidRow := 0
  Next := [-1]
  IntCols := [[42]]
  FltCols := [[1 / 2]]
  StrColMaps := []
  ColTypeMap := ⟨[("f", (.atFlt, 0)), ("i", (.atInt, 0))]⟩
  IdColName := ""
  RowIdMap := ⟨[]⟩
  GroupStmtNames := ⟨[]⟩
  GroupIDMapping := ⟨[]⟩
  GroupMapping := ⟨[]⟩
  SrcCol := ""
  DstCol := ""
  EdgeAttrV := []
  SrcNodeAttrV := []
  DstNodeAttrV := []
  CommonNodeAttrs := []
  RowIdBuckets := []
  CurrBucket := 0
  AggrPolicy := .aaFirst

/-! ## Machine integers and `GetColIdx` -/

/-- Modelled from the spec: the value range of `TInt`, whose declaration is
outside `table.h` (the header uses its bounds `TInt::Mn` and `TInt::Mx`): a
C++ `int`, 32 bits in two's complement. `wrapInt32 x` is the value of that
range congruent to `x` modulo `2^32`. -/
def wrapInt32 (x : Int) : Int := (x + 2147483648) % 4294967296 - 2147483648

/-- An integer attribute value as a vector of `TInt` stores it: an integer
of the 32-bit range. -/
def TInt32 : Type := { x : Int // -2147483648 ≤ x ∧ x ≤ 2147483647 }

instance : DecidableEq TInt32 :=
  inferInstanceAs (DecidableEq { x : Int // -2147483648 ≤ x ∧ x ≤ 2147483647 })

instance : LinearOrder TInt32 :=
  inferInstanceAs (LinearOrder { x : Int // -2147483648 ≤ x ∧ x ≤ 2147483647 })

/-- Addition of two `TInt` values: the `int` sum, wrapped into the range. -/
instance : Add TInt32 :=
  ⟨fun a b => ⟨wrapInt32 (a.val + b.val), by unfold wrapInt32; omega⟩⟩

/-- Exact sum of the values of a vector of 32-bit integers. -/
def TInt32.sumVals (V : List TInt32) : Int := (V.map Subtype.val).sum

/-- Get index of column `ColName` among columns of the same type in the
schema. -/
def TTable.GetColIdx (T : TTable) (ColName : TStr) : Except TErr TInt :=
  if T.ColTypeMap.IsKey ColName then do
    let Dat ← T.ColTypeMap.GetDat ColName
    pure Dat.2
  else pure (-1)

/-- The two-element vector `[2147483647, 1]` of 32-bit integers. -/
def overflowVec : List TInt32 := [⟨2147483647, by decide⟩, ⟨1, by decide⟩]

/-! ## Row lifecycle and row iterators -/

/-- Modelled from the spec: the sentinel `TTable::Last` (declared in
`table.h`, defined outside it), the "next" pointer of the last logical row: a
reserved out-of-range value. -/
def TTable.Last : TInt := -1

/-- Modelled from the spec: the sentinel `TTable::Invalid` (declared in
`table.h`, defined outside it), the "next" pointer of a logically removed
slot: a reserved out-of-range value. -/
def TTable.Invalid : TInt := -2

/-- Store `x` at position `i` of a vector, `V[i] = x`. -/
def TVec.set {T : Type} (V : List T) (i : TInt) (x : T) : List T :=
  if 0 ≤ i then List.set V i.toNat x else V

/-- Modelled from the spec: the constructor `TTable(TTableContext&)` behind
`TTable::New(Context)`, whose body is outside `table.h`: a table without
columns and without rows, whose logical chain is empty. -/
def TTable.New (Context : TTableContext) : TTable where
  Name := ""
  Context := Context
  S := []
  NumRows := 0
  NumValidRows := 0
  FirstValidRow := TTable.Last
  LastValidRow := TTable.Last
  Next := []
  IntCols := []
  FltCols := []
  StrColMaps := []
  ColTypeMap := ⟨[]⟩
  IdColName := ""
  RowIdMap := ⟨[]⟩
  GroupStmtNames := ⟨[]⟩
  GroupIDMapping := ⟨[]⟩
  GroupMapping := ⟨[]⟩
  SrcCol := ""
  DstCol := ""
  EdgeAttrV := []
  SrcNodeAttrV := []
  DstNodeAttrV := []
  CommonNodeAttrs := []
  RowIdBuckets := []
  CurrBucket := 0
  AggrPolicy := .aaFirst

namespace TTable

/-- Get total number of rows in this table. -/
def GetNumRows (T : TTable) : TInt := T.NumRows

/-- Get number of valid, i.e. not deleted, rows in this table. -/
def GetNumValidRows (T : TTable) : TInt := T.NumValidRows

/-- Check if `RowIdx` corresponds to a valid (i.e. not deleted) row. -/
def IsRowValid (T : TTable) (RowIdx : TInt) : Except TErr Bool := do
  let Nxt ← TVec.get T.Next RowIdx
  pure (Nxt != TTable.Invalid)

/-- Modelled from the spec: `UpdateTableForNewRow`, whose body is outside
`table.h`, the row-lifecycle effect of appending one row ("adds one row at the
end of physical storage, extends the logical chain"): the new slot `NumRows`
becomes the last logical row. -/
def UpdateTableForNewRow (T : TTable) : TTable :=
  { T with
    Next :=
      TVec.Add
        (if T.FirstValidRow = TTable.Last then T.Next
         else TVec.set T.Next T.LastValidRow T.NumRows)
        TTable.Last
    FirstValidRow := if T.FirstValidRow = TTable.Last then T.NumRows else T.FirstValidRow
    LastValidRow := T.NumRows
    NumRows := T.NumRows + 1
    NumValidRows := T.NumValidRows + 1 }

/-- Modelled from the spec: `RemoveFirstRow`, whose body is outside `table.h`
("unlinks the row from the chain ... update first_valid/last_valid if the
target was an endpoint ... marks the slot REMOVED"). A table without valid
rows is left as it is. -/
def RemoveFirstRow (T : TTable) : TTable :=
  if T.FirstValidRow = TTable.Last then T
  else
    match TVec.get T.Next T.FirstValidRow with
    | .error _ => T
    | .ok Nxt =>
      { T with
        Next := TVec.set T.Next T.FirstValidRow TTable.Invalid
        FirstValidRow := Nxt
        LastValidRow := if T.FirstValidRow = T.LastValidRow then TTable.Last else T.LastValidRow
        NumValidRows := T.NumValidRows - 1 }

/-- Modelled from the spec: `RemoveRow(RowIdx)`, whose body is outside
`table.h` ("unlinks the row from the chain (next[predecessor] :=
next[target]; update first_valid/last_valid if the target was an endpoint)
and marks the slot REMOVED"; "removing a nonexistent or already-removed
physical index is a no-op"). The predecessor is the slot whose "next" pointer
is `RowIdx`. -/
def RemoveRow (T : TTable) (RowIdx : TInt) : TTable :=
  if RowIdx = T.FirstValidRow then T.RemoveFirstRow
  else
    match TVec.get T.Next RowIdx with
    | .error _ => T
    | .ok Nxt =>
      if Nxt = TTable.Invalid then T
      else
        let Prev : TInt := (T.Next.indexOf RowIdx : Nat)
        { T with
          Next := TVec.set (TVec.set T.Next Prev Nxt) RowIdx TTable.Invalid
          LastValidRow := if RowIdx = T.LastValidRow then Prev else T.LastValidRow
          NumValidRows := T.NumValidRows - 1 }

/-- Modelled from the spec: `RemoveRows(RemoveV)`, whose body is outside
`table.h`: remove the rows with ids present in `RemoveV`, one after the
other. -/
def RemoveRows (T : TTable) (RemoveV : TIntV) : TTable :=
  RemoveV.foldl RemoveRow T

/-- Modelled from the spec: `KeepSortedRows(KeepV)`, whose body is outside
`table.h`: remove all rows that are not mentioned in the sorted vector
`KeepV`. -/
def KeepSortedRows (T : TTable) (KeepV : TIntV) : TTable :=
  ((List.range T.Next.length).filter (fun (p : Nat) => decide ((p : Int) ∉ KeepV))).foldl
    (fun T1 (p : Nat) => T1.RemoveRow (p : Int)) T

end TTable

/-- Iterator class for `TTable` rows: the physical row index of the current
row (the table pointer is passed to the operations). -/
structure TRowIterator where
  CurrRowIdx : TInt
  deriving DecidableEq, Repr

/-- Get iterator to the first valid row of the table. -/
def TTable.BegRI (T : TTable) : TRowIterator := ⟨T.FirstValidRow⟩

/-- Get iterator to the last valid row of the table. -/
def TTable.EndRI (_T : TTable) : TRowIterator := ⟨TTable.Last⟩

/-- Modelled from the spec: `TRowIterator::operator++` / `Next`, whose body is
outside `table.h` ("advancing follows next[]"). -/
def TRowIterator.Next (RI : TRowIterator) (T : TTable) : Except TErr TRowIterator := do
  let Nxt ← TVec.get T.Next RI.CurrRowIdx
  pure ⟨Nxt⟩

/-- Rows visited by a read cursor advanced from `RI` until it equals
`EndRI()`, within `fuel` advances; `none` when the end is not reached. -/
def TTable.visitFrom (T : TTable) : Nat → TRowIterator → Option (List TInt)
  | 0, RI => if RI = T.EndRI then some [] else none
  | fuel + 1, RI =>
    if RI = T.EndRI then some []
    else
      match RI.Next T with
      | .error _ => none
      | .ok RI1 => (T.visitFrom fuel RI1).map (fun rows => RI.CurrRowIdx :: rows)

/-- Rows visited by a read cursor advanced from `BegRI()` until it equals
`EndRI()`. -/
def TTable.rowsVisited (T : TTable) (fuel : Nat) : Option (List TInt) :=
  T.visitFrom fuel T.BegRI

/-- A row append or a logical removal. -/
inductive TableOp where
  | append
  | removeFirst
  | removeRow (RowIdx : TInt)
  | removeRows (RemoveV : TIntV)
  | keepSorted (KeepV : TIntV)
  deriving DecidableEq, Repr

/-- Effect of one row append or logical removal. -/
def TableOp.apply (T : TTable) : TableOp → TTable
  | .append => T.UpdateTableForNewRow
  | .removeFirst => T.RemoveFirstRow
  | .removeRow RowIdx => T.RemoveRow RowIdx
  | .removeRows RemoveV => T.RemoveRows RemoveV
  | .keepSorted KeepV => T.KeepSortedRows KeepV

/-- Effect of a sequence of row appends and logical removals. -/
def TableOp.applyAll (T : TTable) (ops : List TableOp) : TTable :=
  ops.foldl TableOp.apply T

/-- First element of a chain of physical rows, or `stop` for the empty one. -/
def headOr (chain : List Nat) (stop : TInt) : TInt :=
  match chain with
  | [] => stop
  | a :: _ => (a : Int)

/-- Last element of a chain of physical rows, or `stop` for the empty one. -/
def lastOr (chain : List Nat) (stop : TInt) : TInt :=
  match chain.getLast? with
  | none => stop
  | some a => (a : Int)

/-- The "next" pointers link the rows of `chain` in order, the last one
pointing to `stop`. -/
def linkedTo (Nxt : TIntV) : List Nat → TInt → Prop
  | [], _ => True
  | a :: rest, stop => Nxt[a]? = some (headOr rest stop) ∧ linkedTo Nxt rest stop

/-- Well-formed row-lifecycle state with logical order `chain`: the counts
agree with the storage, the valid rows form one duplicate-free chain from
`FirstValidRow` to a row whose "next" is `Last`, `LastValidRow` is its last
row, and every slot outside the chain is marked `Invalid`. -/
def ChainInv (T : TTable) (chain : List Nat) : Prop :=
  T.NumRows = (T.Next.length : Int) ∧
    T.NumValidRows = (chain.length : Int) ∧
    chain.Nodup ∧
    T.FirstValidRow = headOr chain TTable.Last ∧
    T.LastValidRow = lastOr chain TTable.Last ∧
    linkedTo T.Next chain TTable.Last ∧
    ∀ p, p < T.Next.length → p ∉ chain → T.Next[p]? = some TTable.Invalid

/-- The physical rows of a chain as row indices. -/
def chainRows (chain : List Nat) : TIntV := List.map (fun (a : Nat) => (a : Int)) chain

/-- Iterator class for `TTable` rows, that allows logical row removal while
iterating: the physical index of the current row and the flag telling that
the iterator stands before the first valid row (the table pointer is passed
to the operations). -/
structure TRowIteratorWithRemove where
  CurrRowIdx : TInt
  Start : Bool
  deriving DecidableEq, Repr

/-- Modelled from the spec: the constructor `TRowIteratorWithRemove(RowIdx,
TablePtr)`, whose body is outside `table.h`: an iterator made at the first
valid row is the synthetic position before that row ("at start"). -/
def TRowIteratorWithRemove.New (RowIdx : TInt) (T : TTable) : TRowIteratorWithRemove :=
  ⟨RowIdx, RowIdx == T.FirstValidRow⟩

/-- Get iterator with remove to the first valid row. -/
def TTable.BegRIWR (T : TTable) : TRowIteratorWithRemove :=
  TRowIteratorWithRemove.New T.FirstValidRow T

/-- Get iterator with remove to the last valid row. -/
def TTable.EndRIWR (T : TTable) : TRowIteratorWithRemove :=
  TRowIteratorWithRemove.New TTable.Last T

namespace TRowIteratorWithRemove

/-- Modelled from the spec: `GetNextRowIdx`, whose body is outside `table.h`:
the row following the iterator's position, which is the first valid row when
the iterator is at start. -/
def GetNextRowIdx (RI : TRowIteratorWithRemove) (T : TTable) : Except TErr TInt :=
  if RI.Start then pure T.FirstValidRow else TVec.get T.Next RI.CurrRowIdx

/-- Modelled from the spec: `operator++` / `Next`, whose body is outside
`table.h`: advancing moves to the next row and leaves the start position. -/
def Next (RI : TRowIteratorWithRemove) (T : TTable) : Except TErr TRowIteratorWithRemove := do
  let Nxt ← RI.GetNextRowIdx T
  pure ⟨Nxt, false⟩

/-- Modelled from the spec: `RemoveNext`, whose body is outside `table.h`:
"unlinks the row immediately following the cursor's position (using the
cursor's own position as predecessor) without invalidating the cursor
itself". The result is the table after the call. -/
def RemoveNext (RI : TRowIteratorWithRemove) (T : TTable) : TTable :=
  match RI.GetNextRowIdx T with
  | .error _ => T
  | .ok OldNextRowIdx =>
    if OldNextRowIdx = T.FirstValidRow then T.RemoveFirstRow
    else
      match TVec.get T.Next OldNextRowIdx with
      | .error _ => T
      | .ok Nxt =>
        { T with
          Next := TVec.set (TVec.set T.Next RI.CurrRowIdx Nxt) OldNextRowIdx TTable.Invalid
          LastValidRow :=
            if OldNextRowIdx = T.LastValidRow then RI.CurrRowIdx else T.LastValidRow
          NumValidRows := T.NumValidRows - 1 }

end TRowIteratorWithRemove

/-- The table obtained from an empty table by appending three rows. -/
def threeRowTable : TTable :=
  TableOp.applyAll (TTable.New ⟨[]⟩) [.append, .append, .append]

/-! ## Unique -/

namespace TTable

/-- Valid rows of the table in logical order, as a read cursor advanced from
`BegRI()` to `EndRI()` visits them (it needs `NumValidRows` advances); an
error when the chain does not end. -/
def ValidRows (T : TTable) : Except TErr TIntV :=
  match T.rowsVisited T.NumValidRows.toNat with
  | some rows => .ok rows
  | none => .error (.thrown "the logical chain does not end")

/-- Extend the group key `Key` of row `RowIdx` by the values of the columns
`Cols`, in order. -/
def GetGroupKeyAux (T : TTable) (RowIdx : TInt) : TStrV → TGroupKey → Except TErr TGroupKey
  | [], Key => .ok Key
  | Col :: Cols, Key => do
    let Dat ← T.ColTypeMap.GetDat Col
    match Dat.1 with
    | .atInt => do
      let C ← TVec.get T.IntCols Dat.2
      let v ← TVec.get C RowIdx
      GetGroupKeyAux T RowIdx Cols (TVec.Add Key.1 v, Key.2)
    | .atFlt => do
      let C ← TVec.get T.FltCols Dat.2
      let v ← TVec.get C RowIdx
      GetGroupKeyAux T RowIdx Cols (Key.1, TVec.Add Key.2 v)
    | .atStr => do
      let C ← TVec.get T.StrColMaps Dat.2
      let v ← TVec.get C RowIdx
      GetGroupKeyAux T RowIdx Cols (TVec.Add Key.1 v, Key.2)

/-- Modelled from the spec: the GroupKey of row `RowIdx` for the group-by
columns `Cols` (spec 3): the values of the integer columns and the interned
codes of the string columns in the integer component, the values of the float
columns in the float component. A column name absent from the schema is an
error. -/
def GetGroupKey (T : TTable) (Cols : TStrV) (RowIdx : TInt) : Except TErr TGroupKey :=
  T.GetGroupKeyAux RowIdx Cols ([], [])

/-- Modelled from the spec: the pass of `Unique` over the rows (`GroupAux`
with `KeepUnique`, body outside `table.h`): every row is added to the bucket
of its GroupKey with `UpdateGrouping`, and a row whose key had no bucket yet
is recorded in `UniqueVec`. -/
def UniquePass (T : TTable) (Cols : TStrV) :
    TIntV → THash TGroupKey TIntV → TIntV → Except TErr (THash TGroupKey TIntV × TIntV)
  | [], Grouping, UniqueVec => .ok (Grouping, UniqueVec)
  | RowIdx :: Rows, Grouping, UniqueVec => do
    let Key ← T.GetGroupKey Cols RowIdx
    let UniqueVec1 := if Grouping.IsKey Key then UniqueVec else TVec.Add UniqueVec RowIdx
    let Grouping1 ← UpdateGrouping Grouping Key RowIdx
    UniquePass T Cols Rows Grouping1 UniqueVec1

/-- Modelled from the spec: `Unique(Cols)`, whose body is outside `table.h`
("remove rows with duplicate values in given columns", keeping the first
occurrence in logical order, as in the scenario of spec 8): the rows recorded
by the pass are kept, all others are logically removed. The ordering flag
only concerns group ids and is left out. -/
def Unique (T : TTable) (Cols : TStrV) : Except TErr TTable := do
  let Rows ← T.ValidRows
  let Res ← T.UniquePass Cols Rows THash.empty []
  pure (T.KeepSortedRows Res.2)

/-- Rows of `Rows` whose GroupKey is neither in `Seen` nor the key of an
earlier row of `Rows`. -/
def pickFirst (T : TTable) (Cols : TStrV) : TIntV → List TGroupKey → TIntV
  | [], _ => []
  | RowIdx :: Rows, Seen =>
    match T.GetGroupKey Cols RowIdx with
    | .error _ => []
    | .ok Key =>
      if Key ∈ Seen then pickFirst T Cols Rows Seen
      else RowIdx :: pickFirst T Cols Rows (Seen ++ [Key])

end TTable

/-- The table of the scenario of spec 8: schema `[(A:Integer), (B:String)]`
and rows `(1,"x"), (2,"y"), (1,"x")`. -/
def scenarioTable : TTable :=
  { threeRowTable with
    Context := ⟨["x", "y"]⟩
    S := [("A", .atInt), ("B", .atStr)]
    IntCols := [[1, 2, 1]]
    StrColMaps := [[0, 1, 0]]
    ColTypeMap := ⟨[("A", (.atInt, 0)), ("B", (.atStr, 0))]⟩ }

/-- The two tables store the same column data under the same column names. -/
def SameColumns (T1 T2 : TTable) : Prop :=
  T1.IntCols = T2.IntCols ∧ T1.FltCols = T2.FltCols ∧ T1.StrColMaps = T2.StrColMaps ∧
    T1.ColTypeMap = T2.ColTypeMap ∧ T1.Context = T2.Context

/-! ## Join -/

/-- A value stored in a table cell: an integer, a float, or the interned code
of a string. -/
inductive TCell where
  | int (v : TInt)
  | flt (v : TFlt)
  | str (code : TInt)
  deriving DecidableEq, Repr

namespace TTable

/-- Modelled from the spec: the join-column value of a row, read from the
column array of the declared kind of `Col` ("bucket by interned value/numeric
value"). A column name absent from the schema is an error. -/
def GetCell (T : TTable) (Col : TStr) (RowIdx : TInt) : Except TErr TCell := do
  let Dat ← T.ColTypeMap.GetDat Col
  match Dat.1 with
  | .atInt => do
    let C ← TVec.get T.IntCols Dat.2
    let v ← TVec.get C RowIdx
    pure (.int v)
  | .atFlt => do
    let C ← TVec.get T.FltCols Dat.2
    let v ← TVec.get C RowIdx
    pure (.flt v)
  | .atStr => do
    let C ← TVec.get T.StrColMaps Dat.2
    let v ← TVec.get C RowIdx
    pure (.str v)

/-- The rows `Rows`, each paired with its value in column `Col`. -/
def KeyRows (T : TTable) (Col : TStr) : TIntV → Except TErr (List (TCell × TInt))
  | [] => .ok []
  | RowIdx :: Rows => do
    let Key ← T.GetCell Col RowIdx
    let Rest ← KeyRows T Col Rows
    pure ((Key, RowIdx) :: Rest)

end TTable

/-- Probe the hash index of the right table with the rows of the left table:
one joint row `(RowIdx1, RowIdx2)` per row `RowIdx2` in the bucket of the
join-column value of `RowIdx1`. -/
def JoinProbe (Index : THash TCell TIntV) :
    List (TCell × TInt) → Except TErr (List (TInt × TInt))
  | [] => .ok []
  | kr :: Rest => do
    let Matches ←
      if Index.IsKey kr.1 then do
        let Bucket ← Index.GetDat kr.1
        pure (Bucket.map (fun RowIdx2 => (kr.2, RowIdx2)))
      else pure []
    let More ← JoinProbe Index Rest
    pure (Matches ++ More)

/-- Result of a join: the row lifecycle of the output table, and for each
output row, in order, the physical rows of the left and of the right table it
was made from. The schema and the column contents of the output table
(`InitializeJointTable`, `AddJointRow`) are not represented. -/
structure TJointTable where
  Table : TTable
  JointRows : List (TInt × TInt)
  deriving DecidableEq, Repr

/-- Modelled from the spec: `Join(Col1, Table, Col2)`, whose body is outside
`table.h` ("build a hash index on the right side's join column, then probe
with the left side; emit one output row per matching pair"): the index is
built with `UpdateGrouping` over the valid rows of `Table`, and every emitted
pair appends one row to an empty output table. -/
def TTable.Join (T : TTable) (Col1 : TStr) (Table : TTable) (Col2 : TStr) :
    Except TErr TJointTable := do
  let Rows2 ← Table.ValidRows
  let KeyRows2 ← Table.KeyRows Col2 Rows2
  let Index ← UpdateGroupingSeq THash.empty KeyRows2
  let Rows1 ← T.ValidRows
  let KeyRows1 ← T.KeyRows Col1 Rows1
  let JointRows ← JoinProbe Index KeyRows1
  pure ⟨JointRows.foldl (fun J _ => J.UpdateTableForNewRow) (TTable.New T.Context), JointRows⟩

/-- Join table with itself, on values of `Col`. -/
def TTable.SelfJoin (T : TTable) (Col : TStr) : Except TErr TJointTable := T.Join Col T Col

/-- Number of the rows `Rows` of `T` whose value in column `Col` is `Key`. -/
def TTable.keyCount (T : TTable) (Col : TStr) (Rows : TIntV) (Key : TCell) : Nat :=
  Rows.countP (fun r => decide (T.GetCell Col r = .ok Key))

/-! ## `TTableIterator` -/

/-- Iterator over a vector of tables: the vector and the index of the current
table. The element type stands for `PTable`. -/
structure TTableIterator (P : Type) where
  PTableV : List P
  CurrTableIdx : TInt
  deriving DecidableEq, Repr

namespace TTableIterator

/-- Default constructor `TTableIterator(TVec<PTable>& PTableV)`. -/
def New {P : Type} (PTableV : List P) : TTableIterator P := ⟨PTableV, 0⟩

/-- Return next table in the sequence and update iterator,
`return PTableV[CurrTableIdx++]`: the outcome of the access at the old index,
and the iterator with the index advanced. -/
def Next {P : Type} (It : TTableIterator P) : Except TErr P × TTableIterator P :=
  (TVec.get It.PTableV It.CurrTableIdx, { It with CurrTableIdx := It.CurrTableIdx + 1 })

/-- Check if iterator has reached end of the sequence. -/
def HasNext {P : Type} (It : TTableIterator P) : Bool :=
  decide (It.CurrTableIdx < TVec.Len It.PTableV)

/-- The iterator after `k` calls of `Next()`. -/
def afterNext {P : Type} (It : TTableIterator P) : Nat → TTableIterator P
  | 0 => It
  | k + 1 => afterNext It.Next.2 k

/-- The loop `while (It.HasNext()) { Out.Add(It.Next()); }` with at most
`fuel` calls of `Next()`: the tables returned, in order, and the iterator at
the end; `none` when the bound is reached with `HasNext()` still true or when
a call of `Next()` fails. -/
def collect {P : Type} : Nat → TTableIterator P → Option (List P × TTableIterator P)
  | 0, It => if It.HasNext then none else some ([], It)
  | fuel + 1, It =>
    if It.HasNext then
      match It.Next with
      | (.ok Table, It1) => (collect fuel It1).map (fun r => (Table :: r.1, r.2))
      | (.error _, _) => none
    else some ([], It)

end TTableIterator

/-! ## Copy constructor -/

/-- Copy constructor `TTable(const TTable& Table)`: the members named in its
initializer list are copied from `Table`. The other members (`LastValidRow`,
`IdColName`, `RowIdMap`, `GroupStmtNames`, `GroupIDMapping`, `RowIdBuckets`,
`CurrBucket`, `AggrPolicy`) are default-initialized; their default
constructors are outside `table.h`, so the values they produce are taken
from the parameter `Default`. -/
def TTable.Copy (Default : TTable) (Table : TTable) : TTable where
  Name := Table.Name
  Context := Table.Context
  S := Table.S
  NumRows := Table.NumRows
  NumValidRows := Table.NumValidRows
  FirstValidRow := Table.FirstValidRow
  LastValidRow := Default.LastValidRow
  Next := Table.Next
  IntCols := Table.IntCols
  FltCols := Table.FltCols
  StrColMaps := Table.StrColMaps
  ColTypeMap := Table.ColTypeMap
  IdColName := Default.IdColName
  RowIdMap := Default.RowIdMap
  GroupStmtNames := Default.GroupStmtNames
  GroupIDMapping := Default.GroupIDMapping
  GroupMapping := Table.GroupMapping
  SrcCol := Table.SrcCol
  DstCol := Table.DstCol
  EdgeAttrV := Table.EdgeAttrV
  SrcNodeAttrV := Table.SrcNodeAttrV
  DstNodeAttrV := Table.DstNodeAttrV
  CommonNodeAttrs := Table.CommonNodeAttrs
  RowIdBuckets := Default.RowIdBuckets
  CurrBucket := Default.CurrBucket
  AggrPolicy := Default.AggrPolicy

/-! ## `CheckAndAddFltNode` -/

/-- Add a key, `THash::AddKey(Key)`: a key that is absent is added after the
existing entries with a default-constructed datum; a key that is present is
left alone. -/
def THash.AddKey {K D : Type} [DecidableEq K] [Inhabited D] (H : THash K D) (Key : K) :
    THash K D :=
  if H.IsKey Key then H else ⟨H.KeyDatV ++ [(Key, default)]⟩

/-- Check if given `FNodeVal` is seen earlier; if not, add it to `Graph` and
hashmap `NodeVals`. The graph type of the template and its `AddNode` are
parameters. The result is the returned node id with the graph and the
hashmap after the call. -/
def CheckAndAddFltNode {G : Type} (AddNode : G → TInt → G) (Graph : G)
    (NodeVals : THash TFlt TInt) (FNodeVal : TFlt) : Except TErr (TInt × G × THash TFlt TInt) :=
  if !NodeVals.IsKey FNodeVal then
    let NodeVal : TInt := NodeVals.Len
    let Graph1 := AddNode Graph NodeVal
    let NodeVals1 := NodeVals.AddKey FNodeVal
    let NodeVals2 := NodeVals1.AddDat FNodeVal NodeVal
    pure (NodeVal, Graph1, NodeVals2)
  else do
    let NodeVal ← NodeVals.GetDat FNodeVal
    pure (NodeVal, Graph, NodeVals)

/-- A sequence of `CheckAndAddFltNode` calls, one per value, from left to
right: the ids returned, in order, with the graph and the hashmap at the end. -/
def CheckAndAddFltNodeSeq {G : Type} (AddNode : G → TInt → G) :
    G → THash TFlt TInt → List TFlt → Except TErr (TIntV × G × THash TFlt TInt)
  | Graph, NodeVals, [] => .ok ([], Graph, NodeVals)
  | Graph, NodeVals, FNodeVal :: Rest => do
    let R ← CheckAndAddFltNode AddNode Graph NodeVals FNodeVal
    let RS ← CheckAndAddFltNodeSeq AddNode R.2.1 R.2.2 Rest
    pure (R.1 :: RS.1, RS.2.1, RS.2.2)

/-- The distinct values of a list in first-seen order. -/
def firstSeen {K : Type} [DecidableEq K] (Vals : List K) : List K :=
  Vals.foldl (fun Seen v => if v ∈ Seen then Seen else Seen ++ [v]) []

/-- The entries pairing the `i`-th key with the id `Start + i`. -/
def numbered {K : Type} : List K → Nat → List (K × TInt)
  | [], _ => []
  | k :: Keys, Start => (k, (Start : Int)) :: numbered Keys (Start + 1)

/-- A table whose permanent-id column is named `a`. -/
def idTableA : TTable := { TTable.New ⟨[]⟩ with IdColName := "a", RowIdMap := ⟨[(0, 0)]⟩ }

/-- A table whose permanent-id column is named `b`. -/
def idTableB : TTable := { TTable.New ⟨[]⟩ with IdColName := "b", RowIdMap := ⟨[]⟩ }

/-! ## Theorems: vectors and the aggregation loop -/

theorem TVec.get_nil {T : Type} (i : TInt) : TVec.get ([] : List T) i = .error .outOfBounds := by
  unfold TVec.get
  split <;> simp

theorem TVec.get_ofNat {T : Type} (V : List T) (n : Nat) (h : n < V.length) :
    TVec.get V (n : Int) = .ok V[n] := by
  unfold TVec.get
  simp [h]

theorem TVec.get_zero_cons {T : Type} (x : T) (V : List T) : TVec.get (x :: V) 0 = .ok x := by
  simp [TVec.get]

theorem TVec.get_append_length {T : Type} (pre suf : List T) (x : T) :
    TVec.get (pre ++ x :: suf) (pre.length : Int) = .ok x := by
  have h : pre.length < (pre ++ x :: suf).length := by simp
  rw [TVec.get_ofNat _ _ h]
  simp [List.getElem_append_right]

/-- The loop started at index `|pre|` with one iteration per remaining
element folds the body over the remaining elements. -/
theorem aggrLoop_eq_foldl {T : Type} (body : T → T → T) (suf : List T) :
    ∀ (pre : List T) (Res : T),
      aggrLoop (pre ++ suf) body suf.length (pre.length : Int) Res = .ok (suf.foldl body Res) := by
  induction suf with
  | nil => intro pre Res; rfl
  | cons x suf ih =>
    intro pre Res
    have hstep := ih (pre ++ [x]) (body Res x)
    simp only [List.append_assoc, List.singleton_append, List.length_append,
      List.length_singleton, Nat.cast_add, Nat.cast_one] at hstep
    simp only [List.length_cons, aggrLoop, TVec.get_append_length, List.foldl_cons]
    exact hstep

/-- On a non-empty vector the accumulation `Res = V[0]; for i in 1..Len-1`
folds the body over the tail, starting from the head. -/
theorem aggrLoop_cons {T : Type} (body : T → T → T) (x : T) (V : List T) :
    aggrLoop (x :: V) body (aggrIters (x :: V)) 1 x = .ok (V.foldl body x) := by
  have h := aggrLoop_eq_foldl body V [x] x
  simpa [aggrIters] using h

theorem foldl_add_int (V : List Int) (a : Int) : V.foldl (fun Res x => Res + x) a = a + V.sum := by
  induction V generalizing a with
  | nil => simp
  | cons x V ih => simp [ih, add_assoc]

/-- The mean case returns the accumulated sum of the elements, undivided. -/
theorem AggregateVector_mean_eq_sum (V : List Int) (h : V ≠ []) :
    (AggregateVector V aaMean).1 = .ok V.sum := by
  cases V with
  | nil => exact absurd rfl h
  | cons x V =>
    show (do let Res ← TVec.get (x :: V) 0
             aggrLoop (x :: V) (fun Res x => Res + x) (aggrIters (x :: V)) 1 Res) = _
    rw [TVec.get_zero_cons]
    show aggrLoop (x :: V) (fun Res x => Res + x) (aggrIters (x :: V)) 1 x = _
    rw [aggrLoop_cons, foldl_add_int]
    simp

/-! ## Theorems: `AggregateVector` -/

/-- C1 (code defect): on the vector `[1, 3]` the mean policy returns the
accumulated sum `4`, whereas the sum divided by the group size is `2`. -/
theorem AggregateVector_mean_not_divided :
    (AggregateVector ([1, 3] : List Int) aaMean).1 = .ok 4 ∧
      ([1, 3] : List Int).sum / (([1, 3] : List Int).length : Int) = 2 ∧
      (AggregateVector ([1, 3] : List Int) aaMean).1 ≠
        .ok (([1, 3] : List Int).sum / (([1, 3] : List Int).length : Int)) := by
  decide

/-- C2 (counterexample): on the two-element vector `[1, 2]` the median policy
returns `2`, the element at position `1`, not the element at position
`(2 - 1) / 2 = 0` of the sorted vector, which is `1`. -/
theorem AggregateVector_median_not_lower_middle :
    (AggregateVector ([1, 2] : List Int) aaMedian).1 = .ok 2 ∧
      TVec.get (TVec.SortAsc ([1, 2] : List Int)) ((TVec.Len ([1, 2] : List Int) - 1) / 2) = .ok 1 ∧
      (AggregateVector ([1, 2] : List Int) aaMedian).1 ≠
        TVec.get (TVec.SortAsc ([1, 2] : List Int)) ((TVec.Len ([1, 2] : List Int) - 1) / 2) := by
  decide

/-- C2 (amended): for every non-empty vector `V` of length `n` the median
policy returns the element at 0-based position `n / 2` of `V` sorted
ascending: the middle element when `n` is odd and the upper of the two middle
elements when `n` is even. -/
theorem AggregateVector_median_upper_middle {T : Type} [LinearOrder T] [Add T] (V : List T)
    (h : V ≠ []) :
    ∃ (x : T) (S : List T), (AggregateVector V aaMedian).1 = .ok x ∧
      S.Sorted (fun a b => a ≤ b) ∧ S.Perm V ∧ S[V.length / 2]? = some x := by
  have hlen : (TVec.SortAsc V).length = V.length := List.length_insertionSort _ V
  have hpos : 0 < V.length := List.length_pos.mpr h
  have hlt : V.length / 2 < (TVec.SortAsc V).length := by
    rw [hlen]; exact Nat.div_lt_self hpos (by decide)
  refine ⟨(TVec.SortAsc V)[V.length / 2], TVec.SortAsc V, ?_,
    List.sorted_insertionSort _ V, List.perm_insertionSort _ V, ?_⟩
  · show TVec.get (TVec.SortAsc V) (TVec.Len (TVec.SortAsc V) / 2) = _
    have hidx : TVec.Len (TVec.SortAsc V) / 2 = ((V.length / 2 : Nat) : Int) := by
      simp [TVec.Len, hlen]
    rw [hidx, TVec.get_ofNat _ _ hlt]
  · exact List.getElem?_eq_getElem hlt

theorem AggregateVector_median_upper_middle_witness :
    ([3, 1, 2, 4] : List Int) ≠ [] ∧
      ∃ (x : Int) (S : List Int), (AggregateVector ([3, 1, 2, 4] : List Int) aaMedian).1 = .ok x ∧
        S.Sorted (fun a b => a ≤ b) ∧ S.Perm [3, 1, 2, 4] ∧
        S[([3, 1, 2, 4] : List Int).length / 2]? = some x :=
  ⟨by decide, AggregateVector_median_upper_middle [3, 1, 2, 4] (by decide)⟩

/-- C3 (counterexample): on the vector `[5, 7]` the count policy of
`AggregateVector` returns the first element `5`, not the group size `2`, and
the result changes with the stored values. -/
theorem AggregateVector_count_not_size :
    (AggregateVector ([5, 7] : List Int) aaCount).1 = .ok 5 ∧
      (AggregateVector ([5, 7] : List Int) aaCount).1 ≠ .ok (TVec.Len ([5, 7] : List Int)) ∧
      (AggregateVector ([6, 7] : List Int) aaCount).1 ≠
        (AggregateVector ([5, 7] : List Int) aaCount).1 := by
  decide

/-- C3 (amended): for every non-empty vector `V` the count case of
`AggregateVector` is a placeholder that returns the first element `V[0]` and
leaves `V` as it is; it does not compute the group size. -/
theorem AggregateVector_count_returns_first {T : Type} [LinearOrder T] [Add T] (V : List T)
    (h : V ≠ []) :
    AggregateVector V aaCount = (.ok (V.head h), V) := by
  cases V with
  | nil => exact absurd rfl h
  | cons x V => simp [AggregateVector, TVec.get_zero_cons]

theorem AggregateVector_count_returns_first_witness :
    ([5, 7] : List Int) ≠ [] ∧
      AggregateVector ([5, 7] : List Int) aaCount = (.ok 5, [5, 7]) :=
  ⟨by decide, AggregateVector_count_returns_first [5, 7] (by decide)⟩

/-- C7: on the empty vector the policies min, max, sum, mean and median do
not return a value: the access to element 0 is out of range. -/
theorem AggregateVector_empty_fails {T : Type} [LinearOrder T] [Add T] :
    (AggregateVector ([] : List T) aaMin).1 = .error .outOfBounds ∧
      (AggregateVector ([] : List T) aaMax).1 = .error .outOfBounds ∧
      (AggregateVector ([] : List T) aaSum).1 = .error .outOfBounds ∧
      (AggregateVector ([] : List T) aaMean).1 = .error .outOfBounds ∧
      (AggregateVector ([] : List T) aaMedian).1 = .error .outOfBounds := by
  refine ⟨rfl, rfl, rfl, rfl, ?_⟩
  show TVec.get (TVec.SortAsc ([] : List T)) (TVec.Len (TVec.SortAsc ([] : List T)) / 2) = _
  simp [TVec.SortAsc, TVec.get_nil]

/-! ## Theorems: `THash` and `UpdateGrouping` -/

theorem THash.lookup_eq_none_iff {K D : Type} [DecidableEq K] (k : K) (L : List (K × D)) :
    THash.lookup k L = none ↔ k ∉ L.map Prod.fst := by
  induction L with
  | nil => simp [THash.lookup]
  | cons e es ih =>
    by_cases h : e.1 = k
    · simp [THash.lookup, h]
    · have h' : ¬ k = e.1 := fun hk => h hk.symm
      simp [THash.lookup, h, h', ih]

theorem THash.lookup_replace {K D : Type} [DecidableEq K] (k k' : K) (d : D) (L : List (K × D)) :
    THash.lookup k' (THash.replace k d L) =
      if k' = k then (THash.lookup k L).map (fun _ => d) else THash.lookup k' L := by
  induction L with
  | nil => simp [THash.lookup, THash.replace]
  | cons e es ih =>
    by_cases h : e.1 = k
    · by_cases hk : k' = k
      · subst hk; simp [THash.lookup, THash.replace, h]
      · have h2 : ¬ e.1 = k' := fun h3 => hk (h3.symm.trans h)
        have h3 : ¬ k = k' := fun h4 => hk h4.symm
        simp [THash.lookup, THash.replace, h, hk, h3]
    · by_cases hk : k' = k
      · subst hk; simp [THash.lookup, THash.replace, h, ih]
      · simp [THash.lookup, THash.replace, h, hk, ih]

theorem THash.map_fst_replace {K D : Type} [DecidableEq K] (k : K) (d : D) (L : List (K × D)) :
    (THash.replace k d L).map Prod.fst = L.map Prod.fst := by
  induction L with
  | nil => rfl
  | cons e es ih =>
    by_cases h : e.1 = k <;> simp [THash.replace, h, ih]

theorem THash.lookup_append_single {K D : Type} [DecidableEq K] (k k' : K) (d : D)
    (L : List (K × D)) :
    THash.lookup k' (L ++ [(k, d)]) =
      match THash.lookup k' L with
      | some x => some x
      | none => if k = k' then some d else none := by
  induction L with
  | nil => simp [THash.lookup]
  | cons e es ih =>
    by_cases h : e.1 = k' <;> simp [THash.lookup, h, ih]

theorem THash.mem_iff_lookup {K D : Type} [DecidableEq K] (L : List (K × D))
    (hnd : (L.map Prod.fst).Nodup) (k : K) (d : D) :
    (k, d) ∈ L ↔ THash.lookup k L = some d := by
  induction L with
  | nil => simp [THash.lookup]
  | cons e es ih =>
    rw [List.map_cons, List.nodup_cons] at hnd
    obtain ⟨hne, hnd'⟩ := hnd
    by_cases h : e.1 = k
    · have hnot : ∀ d', (k, d') ∉ es := by
        intro d' hm
        apply hne
        rw [h]
        exact List.mem_map.mpr ⟨(k, d'), hm, rfl⟩
      constructor
      · intro hm
        rcases List.mem_cons.mp hm with heq | hm'
        · simp [THash.lookup, ← heq]
        · exact absurd hm' (hnot d)
      · intro hl
        simp only [THash.lookup, h, if_true, Option.some.injEq] at hl
        have : e = (k, d) := Prod.ext h hl
        rw [this]; exact List.mem_cons_self _ _
    · have hne2 : (k, d) ≠ e := fun heq => h (by rw [← heq])
      simp only [THash.lookup, h, if_false, List.mem_cons, hne2, false_or]
      exact ih hnd'

theorem bucketRows_append_single {T : Type} [DecidableEq T] (k k' : T) (v : TInt)
    (ins : List (T × TInt)) :
    bucketRows k' (ins ++ [(k, v)]) = bucketRows k' ins ++ (if k = k' then [v] else []) := by
  by_cases h : k = k' <;> simp [bucketRows, List.filter_append, List.filter_cons, h]

theorem bucketTotal_replace {T : Type} [DecidableEq T] (k : T) (d : TIntV) (v : TInt)
    (L : List (T × TIntV)) (h : THash.lookup k L = some d) :
    bucketTotal ⟨THash.replace k (d ++ [v]) L⟩ = bucketTotal ⟨L⟩ + 1 := by
  induction L with
  | nil => simp [THash.lookup] at h
  | cons e es ih =>
    by_cases hk : e.1 = k
    · simp only [THash.lookup, hk, if_true, Option.some.injEq] at h
      simp [bucketTotal, THash.replace, hk, ← h]
      omega
    · simp only [THash.lookup, hk, if_false] at h
      have ih' := ih h
      simp only [bucketTotal, THash.replace, hk, if_false, List.map_cons, List.sum_cons] at ih' ⊢
      omega

/-- One call of `UpdateGrouping` returns, and keeps the grouping in step with
the insertions made so far. -/
theorem UpdateGrouping_inv {T : Type} [DecidableEq T] (G : THash T TIntV)
    (pre : List (T × TInt)) (k : T) (v : TInt) (hinv : GroupingInv G pre) :
    ∃ G1, UpdateGrouping G k v = .ok G1 ∧ GroupingInv G1 (pre ++ [(k, v)]) := by
  obtain ⟨hnd, hlk, htot⟩ := hinv
  cases hl : THash.lookup k G.KeyDatV with
  | none =>
    have hkey : G.IsKey k = false := by simp [THash.IsKey, hl]
    have hrows : bucketRows k pre = [] := by
      have := hlk k
      rw [hl] at this
      by_contra hne
      simp [hne] at this
    refine ⟨⟨G.KeyDatV ++ [(k, [v])]⟩, ?_, ?_, ?_, ?_⟩
    · simp [UpdateGrouping, hkey, THash.AddDat, TVec.Add]
      rfl
    · rw [List.map_append, List.nodup_append]
      refine ⟨hnd, by simp, ?_⟩
      intro a ha hb
      simp only [List.map_cons, List.map_nil, List.mem_singleton] at hb
      subst hb
      exact (THash.lookup_eq_none_iff _ G.KeyDatV).mp hl ha
    · intro k'
      rw [THash.lookup_append_single, bucketRows_append_single, hlk k']
      by_cases hk : k = k'
      · subst hk; simp [hrows]
      · by_cases hr : bucketRows k' pre = [] <;> simp [hk, hr]
    · simp only [bucketTotal, List.map_append, List.sum_append, List.length_append] at htot ⊢
      simp [htot]
  | some d =>
    have hkey : G.IsKey k = true := by simp [THash.IsKey, hl]
    have hd : bucketRows k pre ≠ [] ∧ d = bucketRows k pre := by
      have := hlk k
      rw [hl] at this
      by_cases hr : bucketRows k pre = []
      · simp [hr] at this
      · simp only [hr, if_false, Option.some.injEq] at this
        exact ⟨hr, this⟩
    refine ⟨⟨THash.replace k (d ++ [v]) G.KeyDatV⟩, ?_, ?_, ?_, ?_⟩
    · simp [UpdateGrouping, hkey, THash.GetDat, hl, THash.SetDat, TVec.Add]
    · rw [THash.map_fst_replace]; exact hnd
    · intro k'
      rw [THash.lookup_replace, bucketRows_append_single]
      by_cases hk : k' = k
      · subst hk; simp [hl, hd.2]
      · have hk' : ¬ k = k' := fun h => hk h.symm
        simp [hk, hk', hlk k']
    · rw [bucketTotal_replace k d v G.KeyDatV hl]
      simp only [List.length_append, List.length_singleton]
      have : bucketTotal G = bucketTotal ⟨G.KeyDatV⟩ := rfl
      omega

/-- A sequence of `UpdateGrouping` calls returns, and keeps the grouping in
step with the insertions. -/
theorem UpdateGroupingSeq_inv {T : Type} [DecidableEq T] (ins : List (T × TInt)) :
    ∀ (G : THash T TIntV) (pre : List (T × TInt)), GroupingInv G pre →
      ∃ G1, UpdateGroupingSeq G ins = .ok G1 ∧ GroupingInv G1 (pre ++ ins) := by
  induction ins with
  | nil => intro G pre h; exact ⟨G, rfl, by simpa using h⟩
  | cons kv rest ih =>
    intro G pre h
    obtain ⟨G1, hG1, hinv1⟩ := UpdateGrouping_inv G pre kv.1 kv.2 h
    obtain ⟨G2, hG2, hinv2⟩ := ih G1 (pre ++ [kv]) hinv1
    refine ⟨G2, ?_, by simpa using hinv2⟩
    simp only [UpdateGroupingSeq, hG1]
    exact hG2

theorem GroupingInv_empty {T : Type} [DecidableEq T] :
    GroupingInv (THash.empty : THash T TIntV) [] := by
  refine ⟨by simp [THash.empty], ?_, rfl⟩
  intro k
  simp [THash.empty, THash.lookup, bucketRows]

/-- Grouping from the empty grouping returns, in step with the insertions. -/
theorem UpdateGroupingSeq_empty_inv {T : Type} [DecidableEq T] (ins : List (T × TInt)) :
    ∃ G, UpdateGroupingSeq THash.empty ins = .ok G ∧ GroupingInv G ins := by
  simpa using UpdateGroupingSeq_inv ins THash.empty [] GroupingInv_empty

/-- Under the invariant, the bucket stored with a key is the non-empty list
of the rows inserted under that key. -/
theorem GroupingInv.bucket_eq {T : Type} [DecidableEq T] {G : THash T TIntV}
    {ins : List (T × TInt)} (hinv : GroupingInv G ins) (e : T × TIntV) (he : e ∈ G.KeyDatV) :
    e.2 = bucketRows e.1 ins ∧ e.2 ≠ [] := by
  obtain ⟨hnd, hlk, _⟩ := hinv
  have h1 : THash.lookup e.1 G.KeyDatV = some e.2 :=
    (THash.mem_iff_lookup G.KeyDatV hnd e.1 e.2).mp he
  have h2 := hlk e.1
  rw [h1] at h2
  by_cases hr : bucketRows e.1 ins = []
  · simp [hr] at h2
  · simp only [hr, if_false, Option.some.injEq] at h2
    exact ⟨h2, by rw [h2]; exact hr⟩

theorem mem_bucketRows {T : Type} [DecidableEq T] (k : T) (r : TInt) (ins : List (T × TInt)) :
    r ∈ bucketRows k ins ↔ (k, r) ∈ ins := by
  simp only [bucketRows, List.mem_map, List.mem_filter, decide_eq_true_eq]
  constructor
  · rintro ⟨kv, ⟨hm, hk⟩, hr⟩
    have : kv = (k, r) := Prod.ext hk hr
    rw [← this]; exact hm
  · intro hm
    exact ⟨(k, r), ⟨hm, rfl⟩, rfl⟩

/-- C4: a grouping built from the empty grouping by any finite sequence of
`UpdateGrouping` calls exists (every call returns) and each of its buckets is
a non-empty list of row indices. -/
theorem UpdateGroupingSeq_buckets_nonempty {T : Type} [DecidableEq T] (ins : List (T × TInt)) :
    ∃ G, UpdateGroupingSeq THash.empty ins = .ok G ∧ ∀ e ∈ G.KeyDatV, e.2 ≠ [] := by
  obtain ⟨G, hG, hinv⟩ := UpdateGroupingSeq_empty_inv ins
  exact ⟨G, hG, fun e he => (hinv.bucket_eq e he).2⟩

/-- C5: when the inserted row indices are pairwise distinct, grouping from the
empty grouping returns a grouping in which two inserted rows lie in one bucket
if and only if they were inserted under equal keys. -/
theorem UpdateGroupingSeq_same_bucket_iff {T : Type} [DecidableEq T] (ins : List (T × TInt))
    (hrows : (ins.map Prod.snd).Nodup) :
    ∃ G, UpdateGroupingSeq THash.empty ins = .ok G ∧
      ∀ p ∈ ins, ∀ q ∈ ins, (∃ e ∈ G.KeyDatV, p.2 ∈ e.2 ∧ q.2 ∈ e.2) ↔ p.1 = q.1 := by
  obtain ⟨G, hG, hinv⟩ := UpdateGroupingSeq_empty_inv ins
  refine ⟨G, hG, ?_⟩
  have hkey : ∀ p ∈ ins, ∀ k, (k, p.2) ∈ ins → k = p.1 := by
    intro p hp k hk
    have := List.inj_on_of_nodup_map hrows hk hp rfl
    exact congrArg Prod.fst this
  intro p hp q hq
  constructor
  · rintro ⟨e, he, hpe, hqe⟩
    have hb := (hinv.bucket_eq e he).1
    rw [hb] at hpe hqe
    have h1 := hkey p hp e.1 ((mem_bucketRows _ _ _).mp hpe)
    have h2 := hkey q hq e.1 ((mem_bucketRows _ _ _).mp hqe)
    rw [← h1, ← h2]
  · intro hpq
    have hpm : p.2 ∈ bucketRows p.1 ins := (mem_bucketRows _ _ _).mpr hp
    have hqm : q.2 ∈ bucketRows p.1 ins := by
      rw [hpq]; exact (mem_bucketRows _ _ _).mpr hq
    have hne : bucketRows p.1 ins ≠ [] := List.ne_nil_of_mem hpm
    have hl := hinv.2.1 p.1
    simp only [hne, if_false] at hl
    have hmem := (THash.mem_iff_lookup G.KeyDatV hinv.1 p.1 _).mpr hl
    exact ⟨(p.1, bucketRows p.1 ins), hmem, hpm, hqm⟩

theorem UpdateGroupingSeq_same_bucket_iff_witness :
    (([(([1], [1 / 2]), 10), (([2], []), 11), (([1], [1 / 2]), 12)] :
        List (TGroupKey × TInt)).map Prod.snd).Nodup ∧
      ∃ G, UpdateGroupingSeq THash.empty
          ([(([1], [1 / 2]), 10), (([2], []), 11), (([1], [1 / 2]), 12)] :
            List (TGroupKey × TInt)) = .ok G ∧
        ∀ p ∈ ([(([1], [1 / 2]), 10), (([2], []), 11), (([1], [1 / 2]), 12)] :
            List (TGroupKey × TInt)),
          ∀ q ∈ ([(([1], [1 / 2]), 10), (([2], []), 11), (([1], [1 / 2]), 12)] :
            List (TGroupKey × TInt)),
            (∃ e ∈ G.KeyDatV, p.2 ∈ e.2 ∧ q.2 ∈ e.2) ↔ p.1 = q.1 :=
  ⟨by decide, UpdateGroupingSeq_same_bucket_iff _ (by decide)⟩

/-- C6: grouping `n` insertions from the empty grouping returns a grouping in
which the length of each bucket is the number of insertions carrying the
bucket's key, and the bucket lengths add up to `n`. -/
theorem UpdateGroupingSeq_bucket_sizes {T : Type} [DecidableEq T] (ins : List (T × TInt)) :
    ∃ G, UpdateGroupingSeq THash.empty ins = .ok G ∧
      (∀ e ∈ G.KeyDatV, e.2.length = ins.countP (fun kv => kv.1 = e.1)) ∧
      (G.KeyDatV.map (fun e => e.2.length)).sum = ins.length := by
  obtain ⟨G, hG, hinv⟩ := UpdateGroupingSeq_empty_inv ins
  refine ⟨G, hG, ?_, hinv.2.2⟩
  intro e he
  rw [(hinv.bucket_eq e he).1]
  simp [bucketRows, List.countP_eq_length_filter]

/-! ## Theorems: column-name lookups of `TTable` -/

theorem THash.IsKey_iff_mem {K D : Type} [DecidableEq K] (H : THash K D) (k : K) :
    H.IsKey k = true ↔ k ∈ H.KeyDatV.map Prod.fst := by
  have h := THash.lookup_eq_none_iff k H.KeyDatV
  unfold THash.IsKey
  cases hl : THash.lookup k H.KeyDatV with
  | none =>
    simp only [Option.isSome_none, Bool.false_eq_true, false_iff]
    exact h.mp hl
  | some d =>
    simp only [Option.isSome_some, true_iff]
    by_contra hn
    rw [h.mpr hn] at hl
    exact Option.noConfusion hl

theorem THash.GetDat_of_not_mem {K D : Type} [DecidableEq K] (H : THash K D) (k : K)
    (h : k ∉ H.KeyDatV.map Prod.fst) : H.GetDat k = .error .noSuchKey := by
  unfold THash.GetDat
  rw [(THash.lookup_eq_none_iff k H.KeyDatV).mpr h]

/-- C8: `SetSrcCol(Name)` fails exactly when `Name` is not a key of the
column-name map; a failing call throws and leaves the table as it was, a
successful call stores `Name` as the source column and changes no other
field. The same holds for `SetDstCol` and the destination column. -/
theorem SetSrcCol_SetDstCol_spec (T : TTable) (Name : TStr) :
    (((T.SetSrcCol Name).1 ≠ .ok ()) ↔ Name ∉ T.ColTypeMap.KeyDatV.map Prod.fst) ∧
      ((T.SetSrcCol Name).1 ≠ .ok () →
        (T.SetSrcCol Name).1 = .error (.thrown (Name ++ ": no such column")) ∧
          (T.SetSrcCol Name).2 = T) ∧
      ((T.SetSrcCol Name).1 = .ok () →
        (T.SetSrcCol Name).2 = { T with SrcCol := Name } ∧
          (T.SetSrcCol Name).2.GetSrcCol = Name) ∧
      (((T.SetDstCol Name).1 ≠ .ok ()) ↔ Name ∉ T.ColTypeMap.KeyDatV.map Prod.fst) ∧
      ((T.SetDstCol Name).1 ≠ .ok () →
        (T.SetDstCol Name).1 = .error (.thrown (Name ++ ": no such column")) ∧
          (T.SetDstCol Name).2 = T) ∧
      ((T.SetDstCol Name).1 = .ok () →
        (T.SetDstCol Name).2 = { T with DstCol := Name } ∧
          (T.SetDstCol Name).2.GetDstCol = Name) := by
  have hk := THash.IsKey_iff_mem T.ColTypeMap Name
  by_cases h : T.ColTypeMap.IsKey Name = true
  · have hm := hk.mp h
    simp [TTable.SetSrcCol, TTable.SetDstCol, TTable.GetSrcCol, TTable.GetDstCol, h, hm]
  · have hm : Name ∉ T.ColTypeMap.KeyDatV.map Prod.fst := fun hx => h (hk.mpr hx)
    simp only [Bool.not_eq_true] at h
    simp [TTable.SetSrcCol, TTable.SetDstCol, h, hm]

theorem SetSrcCol_SetDstCol_spec_witness :
    (exampleTable.SetSrcCol "f").1 = .ok () ∧
      (exampleTable.SetSrcCol "f").2 = { exampleTable with SrcCol := "f" } ∧
      (exampleTable.SetSrcCol "g").1 ≠ .ok () ∧
      (exampleTable.SetSrcCol "g").2 = exampleTable :=
  ⟨by decide,
    ((SetSrcCol_SetDstCol_spec exampleTable "f").2.2.1 (by decide)).1,
    by decide,
    ((SetSrcCol_SetDstCol_spec exampleTable "g").2.1 (by decide)).2⟩

/-- C9: for a column name that is not in the column-name map, the by-name
accessors `GetColType`, `GetIntVal`, `GetFltVal` and `GetStrVal` fail instead
of returning a value. -/
theorem by_name_accessors_fail_on_unknown_column (T : TTable) (ColName : TStr) (RowIdx : TInt)
    (h : ColName ∉ T.ColTypeMap.KeyDatV.map Prod.fst) :
    T.GetColType ColName = .error .noSuchKey ∧
      T.GetIntVal ColName RowIdx = .error .noSuchKey ∧
      T.GetFltVal ColName RowIdx = .error .noSuchKey ∧
      T.GetStrVal ColName RowIdx = .error .noSuchKey := by
  have hg := THash.GetDat_of_not_mem T.ColTypeMap ColName h
  simp only [TTable.GetColType, TTable.GetIntVal, TTable.GetFltVal, TTable.GetStrVal, hg]
  exact ⟨rfl, rfl, rfl, rfl⟩

theorem by_name_accessors_fail_on_unknown_column_witness :
    "g" ∉ exampleTable.ColTypeMap.KeyDatV.map Prod.fst ∧
      exampleTable.GetColType "g" = .error .noSuchKey ∧
      exampleTable.GetIntVal "g" 0 = .error .noSuchKey ∧
      exampleTable.GetFltVal "g" 0 = .error .noSuchKey ∧
      exampleTable.GetStrVal "g" 0 = .error .noSuchKey :=
  ⟨by decide, by_name_accessors_fail_on_unknown_column exampleTable "g" 0 (by decide)⟩

/-- C10 (counterexample): in `exampleTable` the column `f` is declared Float,
yet `GetIntVal("f", 0)` returns `42`, the value stored in row 0 of the integer
column `i`, and reports no error. -/
theorem GetIntVal_float_column_returns_value :
    exampleTable.GetColType "f" = .ok .atFlt ∧
      exampleTable.GetIntVal "f" 0 = .ok 42 ∧
      exampleTable.GetIntVal "i" 0 = .ok 42 := by
  decide

/-- C10 (amended): `GetIntVal` makes no kind check. For a column name recorded
in the column-name map with any declared kind and type-local index `Idx`, and
a row `Row` such that integer column `Idx` exists and has that row,
`GetIntVal(ColName, Row)` returns the value of integer column `Idx` at `Row`
and reports no error. -/
theorem GetIntVal_no_kind_check (T : TTable) (ColName : TStr) (Kind : TAttrType)
    (Idx Row : Nat) (Col : TIntV) (x : TInt)
    (hmap : T.ColTypeMap.GetDat ColName = .ok (Kind, (Idx : Int)))
    (hcol : T.IntCols[Idx]? = some Col) (hrow : Col[Row]? = some x) :
    T.GetIntVal ColName (Row : Int) = .ok x := by
  have h1 : TVec.get T.IntCols (Idx : Int) = .ok Col := by
    simp [TVec.get, hcol]
  have h2 : TVec.get Col (Row : Int) = .ok x := by
    simp [TVec.get, hrow]
  simp only [TTable.GetIntVal, hmap]
  show (do let Col ← TVec.get T.IntCols (Idx : Int); TVec.get Col (Row : Int)) = _
  rw [h1]
  exact h2

theorem GetIntVal_no_kind_check_witness :
    exampleTable.ColTypeMap.GetDat "f" = .ok (.atFlt, ((0 : Nat) : Int)) ∧
      exampleTable.IntCols[0]? = some [42] ∧ ([42] : TIntV)[0]? = some 42 ∧
      exampleTable.GetIntVal "f" ((0 : Nat) : Int) = .ok 42 :=
  ⟨by decide, by decide, by decide,
    GetIntVal_no_kind_check exampleTable "f" .atFlt 0 0 [42] 42 (by decide) (by decide) (by decide)⟩

/-! ## Theorems: minimum, maximum and sum -/

theorem foldl_min_spec {T : Type} [LinearOrder T] (V : List T) :
    ∀ Res : T,
      (V.foldl (fun Res x => if x < Res then x else Res) Res = Res ∨
        V.foldl (fun Res x => if x < Res then x else Res) Res ∈ V) ∧
      V.foldl (fun Res x => if x < Res then x else Res) Res ≤ Res ∧
      ∀ y ∈ V, V.foldl (fun Res x => if x < Res then x else Res) Res ≤ y := by
  induction V with
  | nil => intro Res; simp
  | cons x V ih =>
    intro Res
    simp only [List.foldl_cons, List.mem_cons]
    obtain ⟨hmem, hle, hall⟩ := ih (if x < Res then x else Res)
    by_cases hx : x < Res
    · simp only [hx, if_true] at hmem hle hall ⊢
      refine ⟨?_, le_trans hle (le_of_lt hx), ?_⟩
      · rcases hmem with h | h
        · exact Or.inr (Or.inl h)
        · exact Or.inr (Or.inr h)
      · intro y hy
        rcases hy with rfl | hy
        · exact hle
        · exact hall y hy
    · simp only [hx, if_false] at hmem hle hall ⊢
      refine ⟨?_, hle, ?_⟩
      · rcases hmem with h | h
        · exact Or.inl h
        · exact Or.inr (Or.inr h)
      · intro y hy
        rcases hy with rfl | hy
        · exact le_trans hle (not_lt.mp hx)
        · exact hall y hy

theorem foldl_max_spec {T : Type} [LinearOrder T] (V : List T) :
    ∀ Res : T,
      (V.foldl (fun Res x => if x > Res then x else Res) Res = Res ∨
        V.foldl (fun Res x => if x > Res then x else Res) Res ∈ V) ∧
      Res ≤ V.foldl (fun Res x => if x > Res then x else Res) Res ∧
      ∀ y ∈ V, y ≤ V.foldl (fun Res x => if x > Res then x else Res) Res := by
  induction V with
  | nil => intro Res; simp
  | cons x V ih =>
    intro Res
    simp only [List.foldl_cons, List.mem_cons]
    obtain ⟨hmem, hle, hall⟩ := ih (if x > Res then x else Res)
    by_cases hx : x > Res
    · simp only [hx, if_true] at hmem hle hall ⊢
      refine ⟨?_, le_trans (le_of_lt hx) hle, ?_⟩
      · rcases hmem with h | h
        · exact Or.inr (Or.inl h)
        · exact Or.inr (Or.inr h)
      · intro y hy
        rcases hy with rfl | hy
        · exact hle
        · exact hall y hy
    · simp only [hx, if_false] at hmem hle hall ⊢
      refine ⟨?_, hle, ?_⟩
      · rcases hmem with h | h
        · exact Or.inl h
        · exact Or.inr (Or.inr h)
      · intro y hy
        rcases hy with rfl | hy
        · exact le_trans (not_lt.mp hx) hle
        · exact hall y hy

/-- C16: for every non-empty vector `V` the min policy returns a value that
is an element of `V` and is less than or equal to every element of `V`. -/
theorem AggregateVector_min_spec {T : Type} [LinearOrder T] [Add T] (V : List T) (h : V ≠ []) :
    ∃ r, (AggregateVector V aaMin).1 = .ok r ∧ r ∈ V ∧ ∀ y ∈ V, r ≤ y := by
  cases V with
  | nil => exact absurd rfl h
  | cons x V =>
    obtain ⟨hmem, hle, hall⟩ := foldl_min_spec V x
    refine ⟨V.foldl (fun Res x => if x < Res then x else Res) x, ?_, ?_, ?_⟩
    · show (do let Res ← TVec.get (x :: V) 0
               aggrLoop (x :: V) (fun Res x => if x < Res then x else Res)
                 (aggrIters (x :: V)) 1 Res) = _
      rw [TVec.get_zero_cons]
      exact aggrLoop_cons _ x V
    · rcases hmem with h1 | h1
      · rw [h1]; exact List.mem_cons_self _ _
      · exact List.mem_cons_of_mem _ h1
    · intro y hy
      rcases List.mem_cons.mp hy with rfl | hy
      · exact hle
      · exact hall y hy

theorem AggregateVector_min_spec_witness :
    ([5, 7, 1, 9] : List Int) ≠ [] ∧
      ∃ r, (AggregateVector ([5, 7, 1, 9] : List Int) aaMin).1 = .ok r ∧
        r ∈ ([5, 7, 1, 9] : List Int) ∧ ∀ y ∈ ([5, 7, 1, 9] : List Int), r ≤ y :=
  ⟨by decide, AggregateVector_min_spec [5, 7, 1, 9] (by decide)⟩

/-- C17: for every non-empty vector `V` the max policy returns a value that
is an element of `V` and is greater than or equal to every element of `V`. -/
theorem AggregateVector_max_spec {T : Type} [LinearOrder T] [Add T] (V : List T) (h : V ≠ []) :
    ∃ r, (AggregateVector V aaMax).1 = .ok r ∧ r ∈ V ∧ ∀ y ∈ V, y ≤ r := by
  cases V with
  | nil => exact absurd rfl h
  | cons x V =>
    obtain ⟨hmem, hle, hall⟩ := foldl_max_spec V x
    refine ⟨V.foldl (fun Res x => if x > Res then x else Res) x, ?_, ?_, ?_⟩
    · show (do let Res ← TVec.get (x :: V) 0
               aggrLoop (x :: V) (fun Res x => if x > Res then x else Res)
                 (aggrIters (x :: V)) 1 Res) = _
      rw [TVec.get_zero_cons]
      exact aggrLoop_cons _ x V
    · rcases hmem with h1 | h1
      · rw [h1]; exact List.mem_cons_self _ _
      · exact List.mem_cons_of_mem _ h1
    · intro y hy
      rcases List.mem_cons.mp hy with rfl | hy
      · exact hle
      · exact hall y hy

theorem AggregateVector_max_spec_witness :
    ([5, 7, 1, 9] : List Int) ≠ [] ∧
      ∃ r, (AggregateVector ([5, 7, 1, 9] : List Int) aaMax).1 = .ok r ∧
        r ∈ ([5, 7, 1, 9] : List Int) ∧ ∀ y ∈ ([5, 7, 1, 9] : List Int), y ≤ r :=
  ⟨by decide, AggregateVector_max_spec [5, 7, 1, 9] (by decide)⟩

theorem wrapInt32_of_range (x : Int) (h : -2147483648 ≤ x ∧ x ≤ 2147483647) :
    wrapInt32 x = x := by
  unfold wrapInt32
  omega

theorem wrapInt32_add_wrap (a b : Int) : wrapInt32 (wrapInt32 a + b) = wrapInt32 (a + b) := by
  unfold wrapInt32
  omega

theorem TInt32.add_val (a b : TInt32) : (a + b).val = wrapInt32 (a.val + b.val) := rfl

theorem foldl_add_int32 (V : List TInt32) :
    ∀ a : TInt32,
      (V.foldl (fun Res x => Res + x) a).val = wrapInt32 (a.val + TInt32.sumVals V) := by
  induction V with
  | nil =>
    intro a
    simp [TInt32.sumVals, wrapInt32_of_range a.val a.property]
  | cons x V ih =>
    intro a
    rw [List.foldl_cons, ih (a + x), TInt32.add_val, wrapInt32_add_wrap]
    simp [TInt32.sumVals, add_assoc]

/-- C18 (counterexample): on the vector `[2147483647, 1]` of 32-bit integers
the sum policy returns `-2147483648`, whereas the sum of the elements is
`2147483648`. -/
theorem AggregateVector_sum_overflow :
    (AggregateVector overflowVec aaSum).1 = .ok ⟨-2147483648, by decide⟩ ∧
      TInt32.sumVals overflowVec = 2147483648 ∧
      (AggregateVector overflowVec aaSum).1.map Subtype.val ≠
        .ok (TInt32.sumVals overflowVec) := by
  decide

/-- C18 (amended): for every non-empty vector `V` of 32-bit integers the sum
policy returns the sum of all elements of `V`, each counted once, computed in
`int` arithmetic: the exact sum reduced modulo `2^32` into the `int` range,
which is the exact sum whenever that sum lies in the range. -/
theorem AggregateVector_sum_spec (V : List TInt32) (h : V ≠ []) :
    ∃ r, (AggregateVector V aaSum).1 = .ok r ∧
      r.val = wrapInt32 (TInt32.sumVals V) ∧
      (-2147483648 ≤ TInt32.sumVals V ∧ TInt32.sumVals V ≤ 2147483647 →
        r.val = TInt32.sumVals V) := by
  cases V with
  | nil => exact absurd rfl h
  | cons x V =>
    have hval : (V.foldl (fun Res x => Res + x) x).val = wrapInt32 (TInt32.sumVals (x :: V)) := by
      rw [foldl_add_int32]
      simp [TInt32.sumVals]
    refine ⟨V.foldl (fun Res x => Res + x) x, ?_, hval, ?_⟩
    · show (do let Res ← TVec.get (x :: V) 0
               aggrLoop (x :: V) (fun Res x => Res + x) (aggrIters (x :: V)) 1 Res) = _
      rw [TVec.get_zero_cons]
      exact aggrLoop_cons _ x V
    · intro hr
      rw [hval, wrapInt32_of_range _ hr]

theorem AggregateVector_sum_spec_witness :
    ([⟨5, by decide⟩, ⟨-7, by decide⟩, ⟨9, by decide⟩] : List TInt32) ≠ [] ∧
      ∃ r, (AggregateVector ([⟨5, by decide⟩, ⟨-7, by decide⟩, ⟨9, by decide⟩] : List TInt32)
          aaSum).1 = .ok r ∧
        r.val = wrapInt32
          (TInt32.sumVals ([⟨5, by decide⟩, ⟨-7, by decide⟩, ⟨9, by decide⟩] : List TInt32)) ∧
        (-2147483648 ≤
            TInt32.sumVals ([⟨5, by decide⟩, ⟨-7, by decide⟩, ⟨9, by decide⟩] : List TInt32) ∧
          TInt32.sumVals ([⟨5, by decide⟩, ⟨-7, by decide⟩, ⟨9, by decide⟩] : List TInt32) ≤
            2147483647 →
          r.val =
            TInt32.sumVals ([⟨5, by decide⟩, ⟨-7, by decide⟩, ⟨9, by decide⟩] : List TInt32)) :=
  ⟨by decide, AggregateVector_sum_spec _ (by decide)⟩

/-! ## Theorems: frame of `UpdateGrouping`, `GetColIdx` -/

theorem THash.GetDat_eq_of_lookup_eq {K D : Type} [DecidableEq K] (H1 H2 : THash K D) (k : K)
    (h : THash.lookup k H1.KeyDatV = THash.lookup k H2.KeyDatV) : H1.GetDat k = H2.GetDat k := by
  unfold THash.GetDat
  rw [h]

/-- C19: `UpdateGrouping(G, K, Val)` returns a grouping in which the bucket of
`K` is the old bucket of `K` with `Val` appended at the end (the one-element
list `[Val]` when `K` was absent), the bucket of every other key is unchanged,
and the stored keys are the old ones, followed by `K` when `K` was absent.
Hence, in a grouping built from the empty one, each bucket lists the rows
inserted under its key in insertion order. -/
theorem UpdateGrouping_frame {T : Type} [DecidableEq T] (G : THash T TIntV) (K : T)
    (Val : TInt) :
    (∃ G1, UpdateGrouping G K Val = .ok G1 ∧
      G1.GetDat K = .ok (TVec.Add ((THash.lookup K G.KeyDatV).getD []) Val) ∧
      (∀ K1, K1 ≠ K → G1.GetDat K1 = G.GetDat K1 ∧ G1.IsKey K1 = G.IsKey K1) ∧
      G1.KeyDatV.map Prod.fst =
        (if G.IsKey K then G.KeyDatV.map Prod.fst else G.KeyDatV.map Prod.fst ++ [K])) ∧
    (∀ ins : List (T × TInt), ∃ G2, UpdateGroupingSeq THash.empty ins = .ok G2 ∧
      ∀ e ∈ G2.KeyDatV, e.2 = (ins.filter (fun kv => kv.1 = e.1)).map Prod.snd) := by
  constructor
  · cases hl : THash.lookup K G.KeyDatV with
    | none =>
      have hkey : G.IsKey K = false := by simp [THash.IsKey, hl]
      have hG1 : UpdateGrouping G K Val = .ok ⟨G.KeyDatV ++ [(K, [Val])]⟩ := by
        simp [UpdateGrouping, hkey, THash.AddDat, TVec.Add]
        rfl
      refine ⟨_, hG1, ?_, ?_, ?_⟩
      · simp [THash.GetDat, THash.lookup_append_single, hl, TVec.Add]
      · intro K1 hK1
        have hne : ¬ K = K1 := fun h => hK1 h.symm
        have hlk : THash.lookup K1 (G.KeyDatV ++ [(K, [Val])]) = THash.lookup K1 G.KeyDatV := by
          rw [THash.lookup_append_single]
          cases THash.lookup K1 G.KeyDatV <;> simp [hne]
        exact ⟨THash.GetDat_eq_of_lookup_eq ⟨_⟩ G K1 hlk, by simp only [THash.IsKey, hlk]⟩
      · simp [hkey]
    | some d =>
      have hkey : G.IsKey K = true := by simp [THash.IsKey, hl]
      have hG1 : UpdateGrouping G K Val = .ok ⟨THash.replace K (d ++ [Val]) G.KeyDatV⟩ := by
        simp [UpdateGrouping, hkey, THash.GetDat, hl, THash.SetDat, TVec.Add]
      refine ⟨_, hG1, ?_, ?_, ?_⟩
      · simp [THash.GetDat, THash.lookup_replace, hl, TVec.Add]
      · intro K1 hK1
        have hlk : THash.lookup K1 (THash.replace K (d ++ [Val]) G.KeyDatV) =
            THash.lookup K1 G.KeyDatV := by
          rw [THash.lookup_replace]
          simp [hK1]
        exact ⟨THash.GetDat_eq_of_lookup_eq ⟨_⟩ G K1 hlk, by simp only [THash.IsKey, hlk]⟩
      · simp [hkey, THash.map_fst_replace]
  · intro ins
    obtain ⟨G2, hG2, hinv⟩ := UpdateGroupingSeq_empty_inv ins
    exact ⟨G2, hG2, fun e he => (hinv.bucket_eq e he).1⟩

/-- C20: `GetColIdx(ColName)` never fails: it returns the type-local index
recorded for `ColName` in the column-name map when `ColName` is a key of the
map, and `-1` when it is not. -/
theorem GetColIdx_spec (T : TTable) (ColName : TStr) :
    (∃ Idx, T.GetColIdx ColName = .ok Idx) ∧
      (∀ Dat, T.ColTypeMap.GetDat ColName = .ok Dat → T.GetColIdx ColName = .ok Dat.2) ∧
      (ColName ∈ T.ColTypeMap.KeyDatV.map Prod.fst →
        ∃ Dat, T.ColTypeMap.GetDat ColName = .ok Dat ∧ T.GetColIdx ColName = .ok Dat.2) ∧
      (ColName ∉ T.ColTypeMap.KeyDatV.map Prod.fst → T.GetColIdx ColName = .ok (-1)) := by
  have hk := THash.IsKey_iff_mem T.ColTypeMap ColName
  cases hl : THash.lookup ColName T.ColTypeMap.KeyDatV with
  | none =>
    have hkey : T.ColTypeMap.IsKey ColName = false := by simp [THash.IsKey, hl]
    have hnm : ColName ∉ T.ColTypeMap.KeyDatV.map Prod.fst :=
      (THash.lookup_eq_none_iff _ _).mp hl
    have hres : T.GetColIdx ColName = .ok (-1) := by
      simp [TTable.GetColIdx, hkey]
      rfl
    refine ⟨⟨_, hres⟩, ?_, fun hm => absurd hm hnm, fun _ => hres⟩
    intro Dat hDat
    simp [THash.GetDat, hl] at hDat
  | some d =>
    have hkey : T.ColTypeMap.IsKey ColName = true := by simp [THash.IsKey, hl]
    have hget : T.ColTypeMap.GetDat ColName = .ok d := by simp [THash.GetDat, hl]
    have hres : T.GetColIdx ColName = .ok d.2 := by
      simp [TTable.GetColIdx, hkey, hget]
    refine ⟨⟨_, hres⟩, ?_, fun _ => ⟨d, hget, hres⟩, fun hn => absurd (hk.mp hkey) hn⟩
    intro Dat hDat
    rw [hget] at hDat
    cases hDat
    exact hres

theorem GetColIdx_spec_witness :
    exampleTable.GetColIdx "i" = .ok 0 ∧ exampleTable.GetColIdx "g" = .ok (-1) :=
  ⟨(GetColIdx_spec exampleTable "i").2.1 (.atInt, 0) (by decide),
    (GetColIdx_spec exampleTable "g").2.2.2 (by decide)⟩

/-! ## Theorems: the logical chain -/

theorem TVec.set_ofNat {T : Type} (V : List T) (i : Nat) (x : T) :
    TVec.set V (i : Int) x = List.set V i x := by
  simp [TVec.set]

theorem TVec.get_ofNat_eq {T : Type} (V : List T) (i : Nat) :
    TVec.get V (i : Int) = match V[i]? with
      | some x => .ok x
      | none => .error .outOfBounds := by
  simp [TVec.get]

theorem TVec.get_ok_iff {T : Type} (V : List T) (i : TInt) (x : T) :
    TVec.get V i = .ok x ↔ ∃ n : Nat, i = (n : Int) ∧ V[n]? = some x := by
  unfold TVec.get
  constructor
  · intro h
    by_cases hi : 0 ≤ i
    · rw [if_pos hi] at h
      refine ⟨i.toNat, (Int.toNat_of_nonneg hi).symm, ?_⟩
      cases hg : V[i.toNat]? with
      | none => rw [hg] at h; cases h
      | some y => rw [hg] at h; cases h; rfl
    · rw [if_neg hi] at h; cases h
  · rintro ⟨n, rfl, hn⟩
    simp [hn]

theorem headOr_append {l : List Nat} (m : List Nat) (s : TInt) (h : l ≠ []) :
    headOr (l ++ m) s = headOr l s := by
  cases l with
  | nil => exact absurd rfl h
  | cons a l => rfl

theorem headOr_nil_append (m : List Nat) (s : TInt) : headOr ([] ++ m) s = headOr m s := rfl

theorem lastOr_append_single (l : List Nat) (a : Nat) (s : TInt) :
    lastOr (l ++ [a]) s = (a : Int) := by
  simp [lastOr]

theorem lastOr_append_cons (l m : List Nat) (a : Nat) (s : TInt) :
    lastOr (l ++ a :: m) s = lastOr (a :: m) s := by
  have hsome : ∃ b, (a :: m).getLast? = some b := by
    cases h : (a :: m).getLast? with
    | none => simp at h
    | some b => exact ⟨b, rfl⟩
  obtain ⟨b, hb⟩ := hsome
  simp [lastOr, List.getLast?_append, hb]

theorem lastOr_cons_cons (a b : Nat) (m : List Nat) (s : TInt) :
    lastOr (a :: b :: m) s = lastOr (b :: m) s := by
  simp [lastOr, List.getLast?_cons_cons]

theorem lastOr_mem (l : List Nat) (s : TInt) (h : l ≠ []) : ∃ b ∈ l, lastOr l s = (b : Int) := by
  unfold lastOr
  cases hl : l.getLast? with
  | none => exact absurd (List.getLast?_eq_none_iff.mp hl) h
  | some b => exact ⟨b, List.mem_of_getLast?_eq_some hl, rfl⟩

theorem natCast_ne_Last (a : Nat) : (a : Int) ≠ TTable.Last := by
  intro h
  have h0 := Int.natCast_nonneg a
  rw [h] at h0
  exact absurd h0 (by decide)

theorem natCast_ne_Invalid (a : Nat) : (a : Int) ≠ TTable.Invalid := by
  intro h
  have h0 := Int.natCast_nonneg a
  rw [h] at h0
  exact absurd h0 (by decide)

theorem headOr_ne_Last (a : Nat) (l : List Nat) : headOr (a :: l) TTable.Last ≠ TTable.Last :=
  natCast_ne_Last a

theorem headOr_ne_Invalid (l : List Nat) : headOr l TTable.Last ≠ TTable.Invalid := by
  cases l with
  | nil => simp [headOr, TTable.Last, TTable.Invalid]
  | cons a l => exact natCast_ne_Invalid a

theorem linkedTo_append (Nxt : TIntV) (l1 l2 : List Nat) (s : TInt) :
    linkedTo Nxt (l1 ++ l2) s ↔ linkedTo Nxt l1 (headOr l2 s) ∧ linkedTo Nxt l2 s := by
  induction l1 with
  | nil => simp [linkedTo]
  | cons a l1 ih =>
    cases l1 with
    | nil =>
      simp only [List.cons_append, List.nil_append, linkedTo, headOr, and_true]
      cases l2 <;> simp [headOr]
    | cons b l1 =>
      simp only [List.cons_append, linkedTo, headOr] at ih ⊢
      rw [ih]
      tauto

theorem linkedTo_congr (Nxt Nxt1 : TIntV) (l : List Nat) (s : TInt)
    (h : ∀ a ∈ l, Nxt1[a]? = Nxt[a]?) (hl : linkedTo Nxt l s) : linkedTo Nxt1 l s := by
  induction l with
  | nil => trivial
  | cons a l ih =>
    obtain ⟨h1, h2⟩ := hl
    refine ⟨?_, ih (fun b hb => h b (List.mem_cons_of_mem _ hb)) h2⟩
    rw [h a (List.mem_cons_self _ _)]
    exact h1

theorem linkedTo_lt (Nxt : TIntV) (l : List Nat) (s : TInt) (hl : linkedTo Nxt l s) :
    ∀ a ∈ l, a < Nxt.length := by
  induction l with
  | nil => intro a ha; cases ha
  | cons b l ih =>
    intro a ha
    obtain ⟨h1, h2⟩ := hl
    rcases List.mem_cons.mp ha with rfl | ha
    · exact (List.getElem?_eq_some.mp h1).1
    · exact ih h2 a ha

theorem linkedTo_succ (Nxt : TIntV) (l : List Nat) (s : TInt) (hl : linkedTo Nxt l s) :
    ∀ a ∈ l, ∃ v, Nxt[a]? = some v ∧ (v = s ∨ ∃ b ∈ l, v = (b : Int)) := by
  induction l with
  | nil => intro a ha; cases ha
  | cons c l ih =>
    intro a ha
    obtain ⟨h1, h2⟩ := hl
    rcases List.mem_cons.mp ha with rfl | ha
    · refine ⟨_, h1, ?_⟩
      cases l with
      | nil => exact Or.inl rfl
      | cons b l => exact Or.inr ⟨b, by simp, rfl⟩
    · obtain ⟨v, hv, hor⟩ := ih h2 a ha
      refine ⟨v, hv, ?_⟩
      rcases hor with h | ⟨b, hb, hvb⟩
      · exact Or.inl h
      · exact Or.inr ⟨b, List.mem_cons_of_mem _ hb, hvb⟩

/-- A read cursor started at the head of a linked chain visits the chain and
stops, whenever it may advance as often as the chain is long. -/
theorem visitFrom_linked (T : TTable) (l : List Nat) (hl : linkedTo T.Next l TTable.Last) :
    ∀ fuel, l.length ≤ fuel →
      T.visitFrom fuel ⟨headOr l TTable.Last⟩ = some (chainRows l) := by
  induction l with
  | nil =>
    intro fuel _
    cases fuel <;> simp [TTable.visitFrom, TTable.EndRI, headOr, chainRows]
  | cons a l ih =>
    intro fuel hfuel
    obtain ⟨h1, h2⟩ := hl
    cases fuel with
    | zero => simp at hfuel
    | succ fuel =>
      have hne : (⟨headOr (a :: l) TTable.Last⟩ : TRowIterator) ≠ T.EndRI := by
        intro h
        exact headOr_ne_Last a l (congrArg TRowIterator.CurrRowIdx h)
      have hnext : TRowIterator.Next ⟨headOr (a :: l) TTable.Last⟩ T =
          .ok ⟨headOr l TTable.Last⟩ := by
        simp only [TRowIterator.Next, headOr, TVec.get_ofNat_eq, h1]
        rfl
      rw [TTable.visitFrom, if_neg hne, hnext]
      show Option.map (fun rows => headOr (a :: l) TTable.Last :: rows)
        (T.visitFrom fuel ⟨headOr l TTable.Last⟩) = _
      rw [ih h2 fuel (by simpa using hfuel)]
      rfl

theorem getElem?_set_append_single (N : TIntV) (l a : Nat) (x y : TInt) (ha : a < N.length)
    (hne : a ≠ l) : (List.set N l x ++ [y])[a]? = N[a]? := by
  rw [List.getElem?_append_left (by simpa using ha)]
  exact List.getElem?_set_ne (Ne.symm hne)

/-- Appending a row extends the logical chain by the new slot. -/
theorem ChainInv_append (T : TTable) (chain : List Nat) (h : ChainInv T chain) :
    ChainInv T.UpdateTableForNewRow (chain ++ [T.Next.length]) := by
  obtain ⟨hrows, hvalid, hnd, hfirst, hlast, hlink, hout⟩ := h
  have hlt := linkedTo_lt _ _ _ hlink
  rcases List.eq_nil_or_concat chain with rfl | ⟨init, l, hc⟩
  · have hF : T.FirstValidRow = TTable.Last := hfirst
    refine ⟨?_, ?_, by simp, ?_, ?_, ?_, ?_⟩
    · simp [TTable.UpdateTableForNewRow, hF, TVec.Add, hrows]
    · simp [TTable.UpdateTableForNewRow, hvalid]
    · simp [TTable.UpdateTableForNewRow, hF, headOr, hrows]
    · simp [TTable.UpdateTableForNewRow, lastOr, hrows]
    · simp [TTable.UpdateTableForNewRow, hF, TVec.Add, linkedTo, headOr]
    · intro p hp hpn
      simp only [TTable.UpdateTableForNewRow, hF, if_true, TVec.Add, List.length_append,
        List.length_singleton, List.nil_append, List.mem_singleton] at hp hpn ⊢
      have hp1 : p < T.Next.length := by omega
      rw [List.getElem?_append_left hp1]
      exact hout p hp1 (by simp)
  · rw [List.concat_eq_append] at hc
    subst hc
    have hF : T.FirstValidRow ≠ TTable.Last := by
      rw [hfirst]
      cases init with
      | nil => exact headOr_ne_Last l []
      | cons a init => exact headOr_ne_Last a _
    have hL : T.LastValidRow = (l : Int) := by rw [hlast, lastOr_append_single]
    have hll : l < T.Next.length := hlt l (by simp)
    have hlnd : l ∉ init := by
      intro hm
      have := List.nodup_append.mp hnd
      exact this.2.2 hm (by simp)
    obtain ⟨hlink1, hlink2⟩ := (linkedTo_append _ _ _ _).mp hlink
    refine ⟨?_, ?_, ?_, ?_, ?_, ?_, ?_⟩
    · simp [TTable.UpdateTableForNewRow, hF, TVec.Add, hrows, hL, TVec.set_ofNat]
    · show T.NumValidRows + 1 = (((init ++ [l]) ++ [T.Next.length]).length : Int)
      rw [hvalid]
      simp only [List.length_append, List.length_singleton]
      push_cast
      ring
    · rw [List.nodup_append]
      refine ⟨hnd, by simp, ?_⟩
      intro a ha hb
      simp only [List.mem_singleton] at hb
      have := hlt a ha
      omega
    · simp only [TTable.UpdateTableForNewRow, if_neg hF]
      rw [hfirst]
      exact (headOr_append (l := init ++ [l]) [T.Next.length] _ (by simp)).symm
    · show T.NumRows = lastOr ((init ++ [l]) ++ [T.Next.length]) TTable.Last
      rw [lastOr_append_single, hrows]
    · simp only [TTable.UpdateTableForNewRow, if_neg hF, TVec.Add, hL, hrows, TVec.set_ofNat]
      rw [linkedTo_append, linkedTo_append]
      refine ⟨⟨?_, ?_⟩, ?_⟩
      · refine linkedTo_congr T.Next _ init _ ?_ hlink1
        intro a ha
        exact getElem?_set_append_single _ _ _ _ _ (hlt a (by simp [ha]))
          (fun h => hlnd (h ▸ ha))
      · simp only [linkedTo, headOr, and_true]
        rw [List.getElem?_append_left (by simpa using hll)]
        simp [List.getElem?_set, hll]
      · simp only [linkedTo, headOr, and_true]
        rw [List.getElem?_append_right (by simp)]
        simp
    · intro p hp hpn
      simp only [TTable.UpdateTableForNewRow, if_neg hF, TVec.Add, hL, hrows, TVec.set_ofNat,
        List.length_append, List.length_singleton, List.length_set, List.mem_append,
        List.mem_singleton, not_or] at hp hpn ⊢
      have hp1 : p < T.Next.length := by omega
      rw [getElem?_set_append_single _ _ _ _ _ hp1 hpn.1.2]
      exact hout p hp1 (by simp [hpn.1.1, hpn.1.2])

theorem lastOr_ne_head (p b : Nat) (m : List Nat) (hnd : (p :: b :: m).Nodup) :
    (p : Int) ≠ lastOr (p :: b :: m) TTable.Last := by
  rw [lastOr_cons_cons]
  obtain ⟨c, hc, hcl⟩ := lastOr_mem (b :: m) TTable.Last (by simp)
  rw [hcl]
  intro h
  have hpc : p = c := by exact_mod_cast h
  have := (List.nodup_cons.mp hnd).1
  exact this (hpc ▸ hc)

/-- Removing the first row drops the head of the logical chain. -/
theorem ChainInv_removeFirst (T : TTable) (chain : List Nat) (h : ChainInv T chain) :
    ChainInv T.RemoveFirstRow chain.tail := by
  obtain ⟨hrows, hvalid, hnd, hfirst, hlast, hlink, hout⟩ := h
  cases chain with
  | nil =>
    have hF : T.FirstValidRow = TTable.Last := hfirst
    simp only [TTable.RemoveFirstRow, hF, if_true, List.tail_nil]
    exact ⟨hrows, hvalid, hnd, hfirst, hlast, hlink, hout⟩
  | cons p post =>
    have hF : T.FirstValidRow = (p : Int) := hfirst
    have hFne : T.FirstValidRow ≠ TTable.Last := by rw [hF]; exact natCast_ne_Last p
    obtain ⟨hp, hlinkpost⟩ := hlink
    have hpl : p < T.Next.length := (List.getElem?_eq_some.mp hp).1
    have hget : TVec.get T.Next T.FirstValidRow = .ok (headOr post TTable.Last) := by
      rw [hF, TVec.get_ofNat_eq, hp]
    have hpnd : p ∉ post := (List.nodup_cons.mp hnd).1
    have hndpost : post.Nodup := (List.nodup_cons.mp hnd).2
    simp only [TTable.RemoveFirstRow, if_neg hFne, hget, List.tail_cons]
    refine ⟨?_, ?_, hndpost, rfl, ?_, ?_, ?_⟩
    · simp [hF, TVec.set_ofNat, hrows]
    · show T.NumValidRows - 1 = (post.length : Int)
      rw [hvalid]
      simp
    · show (if T.FirstValidRow = T.LastValidRow then TTable.Last else T.LastValidRow) =
        lastOr post TTable.Last
      cases post with
      | nil =>
        have : T.FirstValidRow = T.LastValidRow := by
          rw [hF, hlast]; simp [lastOr]
        simp [this, lastOr]
      | cons b m =>
        have hne : T.FirstValidRow ≠ T.LastValidRow := by
          rw [hF, hlast]; exact lastOr_ne_head p b m hnd
        rw [if_neg hne, hlast, lastOr_cons_cons]
    · show linkedTo (TVec.set T.Next T.FirstValidRow TTable.Invalid) post TTable.Last
      rw [hF, TVec.set_ofNat]
      refine linkedTo_congr T.Next _ post _ ?_ hlinkpost
      intro a ha
      exact List.getElem?_set_ne (fun (h : p = a) => hpnd (by rw [h]; exact ha))
    · intro q hq hqn
      simp only [hF, TVec.set_ofNat, List.length_set] at hq ⊢
      by_cases hqp : q = p
      · subst hqp
        simp [List.getElem?_set, hq]
      · rw [List.getElem?_set_ne (fun h => hqp h.symm)]
        exact hout q hq (by simp [hqp, hqn])

/-- In a well-formed table the only slot whose "next" pointer is the chain
row `p` is the predecessor of `p` in the chain. -/
theorem pred_unique (T : TTable) (pre post : List Nat) (a p : Nat)
    (h : ChainInv T (pre ++ a :: p :: post)) :
    ∀ j, T.Next[j]? = some (p : Int) → j = a := by
  obtain ⟨_, _, hnd, _, _, hlink, hout⟩ := h
  intro j hj
  have hjl : j < T.Next.length := (List.getElem?_eq_some.mp hj).1
  obtain ⟨hl1, hl2⟩ := (linkedTo_append _ _ _ _).mp hlink
  obtain ⟨ha, hl3⟩ := hl2
  obtain ⟨hp, hl4⟩ := hl3
  have hnd1 := List.nodup_append.mp hnd
  have hnd2 := List.nodup_cons.mp hnd1.2.1
  have hnd3 := List.nodup_cons.mp hnd2.2
  have hp_pre : p ∉ pre := fun hm => hnd1.2.2 hm (by simp)
  have hcast : ∀ b : Nat, (b : Int) = (p : Int) → b = p := fun b hb => by exact_mod_cast hb
  by_contra hja
  by_cases hjc : j ∈ pre ++ a :: p :: post
  · rcases List.mem_append.mp hjc with hjpre | hjrest
    · obtain ⟨v, hv, hor⟩ := linkedTo_succ _ _ _ hl1 j hjpre
      rw [hj] at hv
      cases hv
      rcases hor with h1 | ⟨b, hb, hvb⟩
      · have : p = a := by
          have h2 : (p : Int) = (a : Int) := h1
          exact_mod_cast h2
        exact hnd2.1 (this ▸ List.mem_cons_self _ _)
      · exact hp_pre ((hcast b hvb.symm) ▸ hb)
    · rcases List.mem_cons.mp hjrest with rfl | hjrest
      · exact hja rfl
      · rcases List.mem_cons.mp hjrest with rfl | hjpost
        · rw [hj] at hp
          cases post with
          | nil => exact natCast_ne_Last j (Option.some.inj hp)
          | cons b m =>
            have h2 : (j : Int) = (b : Int) := Option.some.inj hp
            have : j = b := by exact_mod_cast h2
            exact hnd3.1 (this ▸ List.mem_cons_self _ _)
        · obtain ⟨v, hv, hor⟩ := linkedTo_succ _ _ _ hl4 j hjpost
          rw [hj] at hv
          cases hv
          rcases hor with h1 | ⟨b, hb, hvb⟩
          · exact natCast_ne_Last p h1
          · exact hnd3.1 ((hcast b hvb.symm) ▸ hb)
  · have := hout j hjl hjc
    rw [hj] at this
    exact natCast_ne_Invalid p (Option.some.inj this)

theorem indexOf_pred (T : TTable) (pre post : List Nat) (a p : Nat)
    (h : ChainInv T (pre ++ a :: p :: post)) : T.Next.indexOf (p : Int) = a := by
  have huniq := pred_unique T pre post a p h
  obtain ⟨_, _, _, _, _, hlink, _⟩ := h
  obtain ⟨_, hl2⟩ := (linkedTo_append _ _ _ _).mp hlink
  have ha : T.Next[a]? = some (p : Int) := hl2.1
  have hmem : (p : Int) ∈ T.Next := List.getElem?_mem ha
  have hlt : T.Next.indexOf (p : Int) < T.Next.length := List.indexOf_lt_length.mpr hmem
  apply huniq
  rw [List.getElem?_eq_getElem hlt, List.getElem_indexOf hlt]

/-- Removing a row that is not the first one unlinks it from its
predecessor. -/
theorem ChainInv_removeRow_mid (T : TTable) (pre post : List Nat) (a p : Nat)
    (h : ChainInv T (pre ++ a :: p :: post)) :
    ChainInv (T.RemoveRow (p : Int)) (pre ++ a :: post) := by
  have hidx := indexOf_pred T pre post a p h
  obtain ⟨hrows, hvalid, hnd, hfirst, hlast, hlink, hout⟩ := h
  obtain ⟨hl1, hl2⟩ := (linkedTo_append _ _ _ _).mp hlink
  obtain ⟨ha, hl3⟩ := hl2
  obtain ⟨hp, hl4⟩ := hl3
  have hnd1 := List.nodup_append.mp hnd
  have hnd2 := List.nodup_cons.mp hnd1.2.1
  have hnd3 := List.nodup_cons.mp hnd2.2
  have hp_pre : p ∉ pre := fun hm => hnd1.2.2 hm (by simp)
  have ha_pre : a ∉ pre := fun hm => hnd1.2.2 hm (by simp)
  have hap : a ≠ p := fun h => hnd2.1 (h ▸ List.mem_cons_self _ _)
  have ha_post : a ∉ post := fun hm => hnd2.1 (List.mem_cons_of_mem _ hm)
  have hp_post : p ∉ post := hnd3.1
  have hal : a < T.Next.length := (List.getElem?_eq_some.mp ha).1
  have hpl : p < T.Next.length := (List.getElem?_eq_some.mp hp).1
  have hnotfirst : (p : Int) ≠ T.FirstValidRow := by
    rw [hfirst]
    intro heq
    cases pre with
    | nil =>
      have : p = a := by
        have h2 : (p : Int) = (a : Int) := heq
        exact_mod_cast h2
      exact hap this.symm
    | cons c pre =>
      have : p = c := by
        have h2 : (p : Int) = (c : Int) := heq
        exact_mod_cast h2
      exact hp_pre (this ▸ List.mem_cons_self _ _)
  have hget : TVec.get T.Next (p : Int) = .ok (headOr post TTable.Last) := by
    rw [TVec.get_ofNat_eq, hp]
  have hnxt : headOr post TTable.Last ≠ TTable.Invalid := headOr_ne_Invalid post
  simp only [TTable.RemoveRow, if_neg hnotfirst, hget, if_neg hnxt, hidx, TVec.set_ofNat]
  have hnd_new : (pre ++ a :: post).Nodup := by
    rw [List.nodup_append]
    refine ⟨hnd1.1, List.nodup_cons.mpr ⟨ha_post, hnd3.2⟩, ?_⟩
    intro x hx hy
    exact hnd1.2.2 hx (by
      rcases List.mem_cons.mp hy with rfl | hy
      · simp
      · simp [hy])
  have hkeep : ∀ x, x ≠ a → x ≠ p →
      (List.set (List.set T.Next a (headOr post TTable.Last)) p TTable.Invalid)[x]? =
        T.Next[x]? := by
    intro x hxa hxp
    rw [List.getElem?_set_ne (fun h => hxp h.symm), List.getElem?_set_ne (fun h => hxa h.symm)]
  refine ⟨?_, ?_, hnd_new, ?_, ?_, ?_, ?_⟩
  · simp [hrows]
  · show T.NumValidRows - 1 = ((pre ++ a :: post).length : Int)
    rw [hvalid]
    simp only [List.length_append, List.length_cons]
    push_cast
    ring
  · show T.FirstValidRow = headOr (pre ++ a :: post) TTable.Last
    rw [hfirst]
    cases pre <;> rfl
  · show (if (p : Int) = T.LastValidRow then (a : Int) else T.LastValidRow) =
      lastOr (pre ++ a :: post) TTable.Last
    rw [hlast, lastOr_append_cons, lastOr_append_cons]
    cases post with
    | nil =>
      rw [lastOr_cons_cons]
      simp [lastOr]
    | cons b m =>
      have hne : (p : Int) ≠ lastOr (a :: p :: b :: m) TTable.Last := by
        rw [lastOr_cons_cons]
        exact lastOr_ne_head p b m hnd2.2
      rw [if_neg hne, lastOr_cons_cons, lastOr_cons_cons, lastOr_cons_cons]
  · show linkedTo (List.set (List.set T.Next a (headOr post TTable.Last)) p TTable.Invalid)
      (pre ++ a :: post) TTable.Last
    rw [linkedTo_append]
    refine ⟨?_, ?_, ?_⟩
    · refine linkedTo_congr T.Next _ pre _ ?_ hl1
      intro x hx
      exact hkeep x (fun h => ha_pre (h ▸ hx)) (fun h => hp_pre (h ▸ hx))
    · rw [List.getElem?_set_ne (fun h => hap h.symm)]
      simp [List.getElem?_set, hal]
    · refine linkedTo_congr T.Next _ post _ ?_ hl4
      intro x hx
      exact hkeep x (fun h => ha_post (h ▸ hx)) (fun h => hp_post (h ▸ hx))
  · intro q hq hqn
    simp only [List.length_set] at hq
    have hqa : q ≠ a := fun h => hqn (by simp [h])
    by_cases hqp : q = p
    · subst hqp
      simp [List.getElem?_set, hq]
    · rw [hkeep q hqa hqp]
      apply hout q hq
      simp only [List.mem_append, List.mem_cons, not_or] at hqn ⊢
      exact ⟨hqn.1, hqa, hqp, hqn.2.2⟩

/-- Removing an index that is not a row of the chain changes nothing. -/
theorem RemoveRow_absent (T : TTable) (chain : List Nat) (RowIdx : TInt)
    (h : ChainInv T chain) (hno : ∀ q ∈ chain, (q : Int) ≠ RowIdx) : T.RemoveRow RowIdx = T := by
  obtain ⟨hrows, hvalid, hnd, hfirst, hlast, hlink, hout⟩ := h
  unfold TTable.RemoveRow
  by_cases hF : RowIdx = T.FirstValidRow
  · rw [if_pos hF]
    cases chain with
    | nil =>
      have : T.FirstValidRow = TTable.Last := hfirst
      simp [TTable.RemoveFirstRow, this]
    | cons c chain =>
      exact absurd (hF.trans hfirst).symm (hno c (List.mem_cons_self _ _))
  · rw [if_neg hF]
    cases hg : TVec.get T.Next RowIdx with
    | error e => rfl
    | ok Nxt =>
      obtain ⟨n, rfl, hn⟩ := (TVec.get_ok_iff _ _ _).mp hg
      have hnl : n < T.Next.length := (List.getElem?_eq_some.mp hn).1
      have hnc : n ∉ chain := fun hm => hno n hm rfl
      have := hout n hnl hnc
      rw [hn] at this
      simp [Option.some.inj this]

theorem filter_ne_decomp (s t : List Nat) (p : Nat) (hnd : (s ++ p :: t).Nodup) :
    (s ++ p :: t).filter (fun (q : Nat) => decide ((q : Int) ≠ (p : Int))) = s ++ t := by
  have hnd1 := List.nodup_append.mp hnd
  have hnd2 := List.nodup_cons.mp hnd1.2.1
  have hs : ∀ q ∈ s, q ≠ p := fun q hq h => hnd1.2.2 hq (by simp [h])
  have ht : ∀ q ∈ t, q ≠ p := fun q hq h => hnd2.1 (h ▸ hq)
  rw [List.filter_append, List.filter_cons]
  simp only [ne_eq, not_true_eq_false, decide_False, Bool.false_eq_true, if_false]
  rw [List.filter_eq_self.mpr, List.filter_eq_self.mpr]
  · intro q hq
    simpa using ht q hq
  · intro q hq
    simpa using hs q hq

/-- `RemoveRow` keeps the table well formed: the chain loses the removed row,
and is unchanged when the index is no valid row. -/
theorem ChainInv_removeRow (T : TTable) (chain : List Nat) (RowIdx : TInt)
    (h : ChainInv T chain) :
    ChainInv (T.RemoveRow RowIdx)
      (chain.filter (fun (q : Nat) => decide ((q : Int) ≠ RowIdx))) := by
  by_cases hmem : ∃ p ∈ chain, (p : Int) = RowIdx
  · obtain ⟨p, hp, rfl⟩ := hmem
    obtain ⟨s, t, rfl⟩ := List.append_of_mem hp
    rw [filter_ne_decomp s t p h.2.2.1]
    rcases List.eq_nil_or_concat s with rfl | ⟨pre, a, hs⟩
    · have hF : (p : Int) = T.FirstValidRow := h.2.2.2.1.symm
      have := ChainInv_removeFirst T _ h
      simpa [TTable.RemoveRow, hF] using this
    · rw [List.concat_eq_append] at hs
      subst hs
      have h1 : ChainInv T (pre ++ a :: p :: t) := by simpa using h
      simpa using ChainInv_removeRow_mid T pre t a p h1
  · have hno : ∀ q ∈ chain, (q : Int) ≠ RowIdx := fun q hq heq => hmem ⟨q, hq, heq⟩
    rw [RemoveRow_absent T chain RowIdx h hno, List.filter_eq_self.mpr]
    · exact h
    · intro q hq
      simpa using hno q hq

/-- `RemoveRows` keeps the table well formed and removes exactly the listed
rows from the chain. -/
theorem ChainInv_removeRows (RemoveV : TIntV) :
    ∀ (T : TTable) (chain : List Nat), ChainInv T chain →
      ChainInv (T.RemoveRows RemoveV)
        (chain.filter (fun (q : Nat) => decide ((q : Int) ∉ RemoveV))) := by
  induction RemoveV with
  | nil =>
    intro T chain h
    simpa [TTable.RemoveRows] using h
  | cons v RemoveV ih =>
    intro T chain h
    have h1 := ih (T.RemoveRow v) _ (ChainInv_removeRow T chain v h)
    have heq : (chain.filter (fun (q : Nat) => decide ((q : Int) ≠ v))).filter
          (fun (q : Nat) => decide ((q : Int) ∉ RemoveV)) =
        chain.filter (fun (q : Nat) => decide ((q : Int) ∉ v :: RemoveV)) := by
      rw [List.filter_filter]
      apply List.filter_congr
      intro q _
      simp [Bool.and_comm]
    rw [heq] at h1
    exact h1

/-- `KeepSortedRows` keeps the table well formed and keeps exactly the chain
rows mentioned in `KeepV`, in their order. -/
theorem ChainInv_keepSortedRows (T : TTable) (chain : List Nat) (KeepV : TIntV)
    (h : ChainInv T chain) :
    ChainInv (T.KeepSortedRows KeepV)
      (chain.filter (fun (q : Nat) => decide ((q : Int) ∈ KeepV))) := by
  have hlt := linkedTo_lt _ _ _ h.2.2.2.2.2.1
  have hfold : T.KeepSortedRows KeepV =
      T.RemoveRows (((List.range T.Next.length).filter
        (fun (p : Nat) => decide ((p : Int) ∉ KeepV))).map (fun (p : Nat) => (p : Int))) := by
    simp only [TTable.KeepSortedRows, TTable.RemoveRows, List.foldl_map]
  rw [hfold]
  have h1 := ChainInv_removeRows (((List.range T.Next.length).filter
    (fun (p : Nat) => decide ((p : Int) ∉ KeepV))).map (fun (p : Nat) => (p : Int))) T chain h
  have heq : chain.filter (fun (q : Nat) => decide ((q : Int) ∉
        ((List.range T.Next.length).filter
          (fun (p : Nat) => decide ((p : Int) ∉ KeepV))).map (fun (p : Nat) => (p : Int)))) =
      chain.filter (fun (q : Nat) => decide ((q : Int) ∈ KeepV)) := by
    apply List.filter_congr
    intro q hq
    have hq1 := hlt q hq
    simp only [List.mem_map, List.mem_filter, List.mem_range, decide_eq_true_eq, decide_not,
      Bool.not_eq_true', decide_eq_false_iff_not, Nat.cast_inj, exists_eq_right, not_and,
      not_not, Bool.decide_eq_true]
    by_cases hk : (q : Int) ∈ KeepV
    · simp [hk]
    · simp [hk, hq1]
  rw [heq] at h1
  exact h1

theorem ChainInv_New (Context : TTableContext) : ChainInv (TTable.New Context) [] := by
  refine ⟨rfl, rfl, List.nodup_nil, rfl, rfl, trivial, ?_⟩
  intro p hp
  simp [TTable.New] at hp

/-- Every row append and logical removal keeps the table well formed. -/
theorem ChainInv_apply (T : TTable) (chain : List Nat) (op : TableOp) (h : ChainInv T chain) :
    ∃ chain1, ChainInv (TableOp.apply T op) chain1 := by
  cases op with
  | append => exact ⟨_, ChainInv_append T chain h⟩
  | removeFirst => exact ⟨_, ChainInv_removeFirst T chain h⟩
  | removeRow RowIdx => exact ⟨_, ChainInv_removeRow T chain RowIdx h⟩
  | removeRows RemoveV => exact ⟨_, ChainInv_removeRows RemoveV T chain h⟩
  | keepSorted KeepV => exact ⟨_, ChainInv_keepSortedRows T chain KeepV h⟩

theorem ChainInv_applyAll (ops : List TableOp) :
    ∀ (T : TTable) (chain : List Nat), ChainInv T chain →
      ∃ chain1, ChainInv (TableOp.applyAll T ops) chain1 := by
  induction ops with
  | nil => intro T chain h; exact ⟨chain, h⟩
  | cons op ops ih =>
    intro T chain h
    obtain ⟨chain1, h1⟩ := ChainInv_apply T chain op h
    exact ih (TableOp.apply T op) chain1 h1

/-- In a well-formed table the read cursor visits the rows of the chain in
order. -/
theorem rowsVisited_of_ChainInv (T : TTable) (chain : List Nat) (h : ChainInv T chain)
    (fuel : Nat) (hfuel : chain.length ≤ fuel) : T.rowsVisited fuel = some (chainRows chain) := by
  unfold TTable.rowsVisited TTable.BegRI
  rw [h.2.2.2.1]
  exact visitFrom_linked T chain h.2.2.2.2.2.1 fuel hfuel

/-- C11: in every table reached from an empty table by row appends and
logical removals, a read cursor advanced from `BegRI()` reaches `EndRI()`
(within `GetNumValidRows()` advances, and for every larger bound), and the
number of rows it visits is `GetNumValidRows()`. -/
theorem rowsVisited_length_eq_NumValidRows (Context : TTableContext) (ops : List TableOp) :
    ∃ rows,
      (∀ fuel, (TableOp.applyAll (TTable.New Context) ops).GetNumValidRows.toNat ≤ fuel →
        (TableOp.applyAll (TTable.New Context) ops).rowsVisited fuel = some rows) ∧
      (rows.length : Int) = (TableOp.applyAll (TTable.New Context) ops).GetNumValidRows := by
  obtain ⟨chain, h⟩ := ChainInv_applyAll ops (TTable.New Context) [] (ChainInv_New Context)
  have hv : (TableOp.applyAll (TTable.New Context) ops).GetNumValidRows = (chain.length : Int) :=
    h.2.1
  refine ⟨chainRows chain, ?_, ?_⟩
  · intro fuel hfuel
    rw [hv] at hfuel
    exact rowsVisited_of_ChainInv _ chain h fuel (by simpa using hfuel)
  · rw [hv]
    simp [chainRows]

/-- C12: in a table whose logical order is `r0, rest`, the remove-capable
cursor returned by `BegRIWR()` is at start, one `RemoveNext()` on it removes
`r0`, and a subsequent full traversal visits exactly the rows of `rest` in
their order. -/
theorem RemoveNext_at_start (T : TTable) (r0 : Nat) (rest : List Nat)
    (h : ChainInv T (r0 :: rest)) :
    (∀ fuel, rest.length + 1 ≤ fuel → T.rowsVisited fuel = some (chainRows (r0 :: rest))) ∧
      T.BegRIWR.Start = true ∧
      (T.BegRIWR.RemoveNext T).IsRowValid (r0 : Int) = .ok false ∧
      (T.BegRIWR.RemoveNext T).GetNumValidRows = T.GetNumValidRows - 1 ∧
      (∀ fuel, rest.length ≤ fuel →
        (T.BegRIWR.RemoveNext T).rowsVisited fuel = some (chainRows rest)) := by
  have hstart : T.BegRIWR.Start = true := by
    simp [TTable.BegRIWR, TRowIteratorWithRemove.New]
  have hrem : T.BegRIWR.RemoveNext T = T.RemoveFirstRow := by
    simp [TRowIteratorWithRemove.RemoveNext, TRowIteratorWithRemove.GetNextRowIdx, hstart, pure,
      Except.pure]
  have h1 : ChainInv T.RemoveFirstRow rest := ChainInv_removeFirst T (r0 :: rest) h
  have hr0 : r0 < T.Next.length := linkedTo_lt _ _ _ h.2.2.2.2.2.1 r0 (List.mem_cons_self _ _)
  have hlen : T.RemoveFirstRow.Next.length = T.Next.length := by
    have e1 := h1.1
    have e2 := h.1
    have e3 : T.RemoveFirstRow.NumRows = T.NumRows := by
      unfold TTable.RemoveFirstRow
      split
      · rfl
      · split <;> rfl
    rw [e3, e2] at e1
    exact_mod_cast e1.symm
  have hnot : r0 ∉ rest := (List.nodup_cons.mp h.2.2.1).1
  refine ⟨fun fuel hf => rowsVisited_of_ChainInv T _ h fuel (by simpa using hf), hstart, ?_, ?_,
    ?_⟩
  · rw [hrem]
    have := h1.2.2.2.2.2.2 r0 (by rw [hlen]; exact hr0) hnot
    simp [TTable.IsRowValid, TVec.get_ofNat_eq, this]
  · rw [hrem]
    show T.RemoveFirstRow.NumValidRows = T.NumValidRows - 1
    rw [h1.2.1, h.2.1]
    simp
  · intro fuel hf
    rw [hrem]
    exact rowsVisited_of_ChainInv _ rest h1 fuel hf

theorem RemoveNext_at_start_witness :
    ChainInv threeRowTable (0 :: [1, 2]) ∧
      (threeRowTable.BegRIWR.RemoveNext threeRowTable).IsRowValid ((0 : Nat) : Int) = .ok false ∧
      (threeRowTable.BegRIWR.RemoveNext threeRowTable).rowsVisited 2 = some (chainRows [1, 2]) :=
  ⟨ChainInv_append _ _ (ChainInv_append _ _ (ChainInv_append _ _ (ChainInv_New ⟨[]⟩))),
    (RemoveNext_at_start threeRowTable 0 [1, 2]
      (ChainInv_append _ _ (ChainInv_append _ _ (ChainInv_append _ _ (ChainInv_New ⟨[]⟩))))).2.2.1,
    (RemoveNext_at_start threeRowTable 0 [1, 2]
      (ChainInv_append _ _ (ChainInv_append _ _ (ChainInv_append _ _ (ChainInv_New ⟨[]⟩))))).2.2.2.2
      2 (by decide)⟩

/-! ## Theorems: `Unique` -/

theorem UpdateGrouping_keys {T : Type} [DecidableEq T] (G : THash T TIntV) (K : T) (Val : TInt) :
    ∃ G1, UpdateGrouping G K Val = .ok G1 ∧
      G1.KeyDatV.map Prod.fst =
        (if G.IsKey K then G.KeyDatV.map Prod.fst else G.KeyDatV.map Prod.fst ++ [K]) := by
  cases hl : THash.lookup K G.KeyDatV with
  | none =>
    have hkey : G.IsKey K = false := by simp [THash.IsKey, hl]
    refine ⟨⟨G.KeyDatV ++ [(K, [Val])]⟩, ?_, by simp [hkey]⟩
    simp [UpdateGrouping, hkey, THash.AddDat, TVec.Add]
    rfl
  | some d =>
    have hkey : G.IsKey K = true := by simp [THash.IsKey, hl]
    refine ⟨⟨THash.replace K (d ++ [Val]) G.KeyDatV⟩, ?_, by simp [hkey, THash.map_fst_replace]⟩
    simp [UpdateGrouping, hkey, THash.GetDat, hl, THash.SetDat, TVec.Add]

/-- The pass of `Unique` returns whenever every row has a GroupKey, and the
rows it records are those picked by `pickFirst`. -/
theorem UniquePass_eq (T : TTable) (Cols : TStrV) (Rows : TIntV) :
    ∀ (G : THash TGroupKey TIntV) (U : TIntV),
      (∀ r ∈ Rows, ∃ k, T.GetGroupKey Cols r = .ok k) →
      ∃ G1, T.UniquePass Cols Rows G U =
        .ok (G1, U ++ T.pickFirst Cols Rows (G.KeyDatV.map Prod.fst)) := by
  induction Rows with
  | nil => intro G U _; exact ⟨G, by simp [TTable.UniquePass, TTable.pickFirst]⟩
  | cons r Rows ih =>
    intro G U hk
    obtain ⟨k, hkr⟩ := hk r (List.mem_cons_self _ _)
    obtain ⟨G1, hG1, hkeys⟩ := UpdateGrouping_keys G k r
    have hmem := THash.IsKey_iff_mem G k
    by_cases hkey : G.IsKey k = true
    · obtain ⟨G2, hG2⟩ := ih G1 U (fun r1 h1 => hk r1 (List.mem_cons_of_mem _ h1))
      refine ⟨G2, ?_⟩
      rw [hkeys, if_pos hkey] at hG2
      have hin : k ∈ G.KeyDatV.map Prod.fst := hmem.mp hkey
      simp only [TTable.UniquePass, hkr, hG1, bind, Except.bind, hkey, if_true,
        TTable.pickFirst, hin]
      exact hG2
    · obtain ⟨G2, hG2⟩ := ih G1 (TVec.Add U r) (fun r1 h1 => hk r1 (List.mem_cons_of_mem _ h1))
      refine ⟨G2, ?_⟩
      rw [hkeys, if_neg hkey] at hG2
      have hin : k ∉ G.KeyDatV.map Prod.fst := fun h => hkey (hmem.mpr h)
      simp only [TTable.UniquePass, hkr, hG1, bind, Except.bind, if_neg hkey,
        TTable.pickFirst, hin, if_false]
      simpa [TVec.Add] using hG2

/-- When the pass of `Unique` returns, every row it went over has a
GroupKey. -/
theorem UniquePass_keys_ok (T : TTable) (Cols : TStrV) (Rows : TIntV) :
    ∀ (G : THash TGroupKey TIntV) (U : TIntV) (Res : THash TGroupKey TIntV × TIntV),
      T.UniquePass Cols Rows G U = .ok Res → ∀ r ∈ Rows, ∃ k, T.GetGroupKey Cols r = .ok k := by
  induction Rows with
  | nil => intro G U Res _ r hr; cases hr
  | cons r0 Rows ih =>
    intro G U Res h r hr
    cases hk : T.GetGroupKey Cols r0 with
    | error e => simp [TTable.UniquePass, hk, bind, Except.bind] at h
    | ok k =>
      obtain ⟨G1, hG1, _⟩ := UpdateGrouping_keys G k r0
      simp only [TTable.UniquePass, hk, hG1, bind, Except.bind] at h
      rcases List.mem_cons.mp hr with rfl | hr
      · exact ⟨k, hk⟩
      · exact ih _ _ Res h r hr

theorem pickFirst_sublist (T : TTable) (Cols : TStrV) (Rows : TIntV) :
    ∀ Seen, (T.pickFirst Cols Rows Seen).Sublist Rows := by
  induction Rows with
  | nil => intro Seen; simp [TTable.pickFirst]
  | cons r Rows ih =>
    intro Seen
    unfold TTable.pickFirst
    cases T.GetGroupKey Cols r with
    | error e => exact List.nil_sublist _
    | ok k =>
      by_cases hs : k ∈ Seen
      · simp only [hs, if_true]
        exact (ih Seen).cons r
      · simp only [hs, if_false]
        exact (ih _).cons₂ r

/-- Picking the first rows again changes nothing. -/
theorem pickFirst_idem (T : TTable) (Cols : TStrV) (Rows : TIntV) :
    ∀ Seen, T.pickFirst Cols (T.pickFirst Cols Rows Seen) Seen = T.pickFirst Cols Rows Seen := by
  induction Rows with
  | nil => intro Seen; simp [TTable.pickFirst]
  | cons r Rows ih =>
    intro Seen
    cases hk : T.GetGroupKey Cols r with
    | error e => simp [TTable.pickFirst, hk]
    | ok k =>
      by_cases hs : k ∈ Seen
      · have e1 : T.pickFirst Cols (r :: Rows) Seen = T.pickFirst Cols Rows Seen := by
          simp [TTable.pickFirst, hk, hs]
        rw [e1]
        exact ih Seen
      · have e1 : T.pickFirst Cols (r :: Rows) Seen =
            r :: T.pickFirst Cols Rows (Seen ++ [k]) := by
          simp [TTable.pickFirst, hk, hs]
        rw [e1]
        have e2 : T.pickFirst Cols (r :: T.pickFirst Cols Rows (Seen ++ [k])) Seen =
            r :: T.pickFirst Cols (T.pickFirst Cols Rows (Seen ++ [k])) (Seen ++ [k]) := by
          simp [TTable.pickFirst, hk, hs]
        rw [e2, ih (Seen ++ [k])]

theorem filter_mem_sublist {α : Type} [DecidableEq α] (s l : List α) (hs : s.Sublist l)
    (hnd : l.Nodup) : l.filter (fun x => decide (x ∈ s)) = s := by
  induction hs with
  | slnil => rfl
  | cons a hsl ih =>
    rename_i s1 l1
    have hnd1 := List.nodup_cons.mp hnd
    have ha : a ∉ s1 := fun h => hnd1.1 (hsl.subset h)
    simp only [List.filter_cons, ha, decide_False, Bool.false_eq_true, if_false]
    exact ih hnd1.2
  | cons₂ a hsl ih =>
    rename_i s1 l1
    have hnd1 := List.nodup_cons.mp hnd
    have hrest : l1.filter (fun x => decide (x = a ∨ x ∈ s1)) =
        l1.filter (fun x => decide (x ∈ s1)) := by
      apply List.filter_congr
      intro x hx
      have hxa : x ≠ a := fun h => hnd1.1 (h ▸ hx)
      simp [hxa]
    simp only [List.filter_cons, List.mem_cons, true_or, decide_True, if_true]
    rw [hrest, ih hnd1.2]

theorem SameColumns_removeFirst (T : TTable) : SameColumns T.RemoveFirstRow T := by
  unfold TTable.RemoveFirstRow
  split
  · exact ⟨rfl, rfl, rfl, rfl, rfl⟩
  · split <;> exact ⟨rfl, rfl, rfl, rfl, rfl⟩

theorem SameColumns_removeRow (T : TTable) (RowIdx : TInt) :
    SameColumns (T.RemoveRow RowIdx) T := by
  unfold TTable.RemoveRow
  split
  · exact SameColumns_removeFirst T
  · split
    · exact ⟨rfl, rfl, rfl, rfl, rfl⟩
    · split <;> exact ⟨rfl, rfl, rfl, rfl, rfl⟩

theorem SameColumns_removeRows (RemoveV : TIntV) :
    ∀ T : TTable, SameColumns (T.RemoveRows RemoveV) T := by
  induction RemoveV with
  | nil => intro T; exact ⟨rfl, rfl, rfl, rfl, rfl⟩
  | cons v RemoveV ih =>
    intro T
    obtain ⟨a1, a2, a3, a4, a5⟩ := ih (T.RemoveRow v)
    obtain ⟨b1, b2, b3, b4, b5⟩ := SameColumns_removeRow T v
    exact ⟨a1.trans b1, a2.trans b2, a3.trans b3, a4.trans b4, a5.trans b5⟩

theorem KeepSortedRows_eq_RemoveRows (T : TTable) (KeepV : TIntV) :
    T.KeepSortedRows KeepV =
      T.RemoveRows (((List.range T.Next.length).filter
        (fun (p : Nat) => decide ((p : Int) ∉ KeepV))).map (fun (p : Nat) => (p : Int))) := by
  simp only [TTable.KeepSortedRows, TTable.RemoveRows, List.foldl_map]

theorem SameColumns_keepSortedRows (T : TTable) (KeepV : TIntV) :
    SameColumns (T.KeepSortedRows KeepV) T := by
  rw [KeepSortedRows_eq_RemoveRows]
  exact SameColumns_removeRows _ T

theorem GetGroupKeyAux_congr (T1 T2 : TTable) (h : SameColumns T1 T2) (RowIdx : TInt)
    (Cols : TStrV) : ∀ Key, T1.GetGroupKeyAux RowIdx Cols Key = T2.GetGroupKeyAux RowIdx Cols Key := by
  obtain ⟨h1, h2, h3, h4, _⟩ := h
  induction Cols with
  | nil => intro Key; rfl
  | cons Col Cols ih =>
    intro Key
    simp only [TTable.GetGroupKeyAux, h1, h2, h3, h4, ih]

theorem pickFirst_congr (T1 T2 : TTable) (h : SameColumns T1 T2) (Cols : TStrV) (Rows : TIntV) :
    ∀ Seen, T1.pickFirst Cols Rows Seen = T2.pickFirst Cols Rows Seen := by
  induction Rows with
  | nil => intro Seen; rfl
  | cons r Rows ih =>
    intro Seen
    simp only [TTable.pickFirst, TTable.GetGroupKey, GetGroupKeyAux_congr T1 T2 h, ih]

theorem RemoveRows_absent (T : TTable) (chain : List Nat) (h : ChainInv T chain)
    (RemoveV : TIntV) (hno : ∀ v ∈ RemoveV, ∀ q ∈ chain, (q : Int) ≠ v) :
    T.RemoveRows RemoveV = T := by
  induction RemoveV with
  | nil => rfl
  | cons v RemoveV ih =>
    have h1 : T.RemoveRow v = T :=
      RemoveRow_absent T chain v h (hno v (List.mem_cons_self _ _))
    show (T.RemoveRow v).RemoveRows RemoveV = T
    rw [h1]
    exact ih (fun v1 hv1 => hno v1 (List.mem_cons_of_mem _ hv1))

/-- Keeping a set of rows that contains every valid row changes nothing. -/
theorem KeepSortedRows_all (T : TTable) (chain : List Nat) (h : ChainInv T chain)
    (KeepV : TIntV) (hall : ∀ q ∈ chain, (q : Int) ∈ KeepV) : T.KeepSortedRows KeepV = T := by
  rw [KeepSortedRows_eq_RemoveRows]
  apply RemoveRows_absent T chain h
  intro v hv q hq heq
  simp only [List.mem_map, List.mem_filter, List.mem_range, decide_eq_true_eq] at hv
  obtain ⟨p, ⟨_, hp⟩, rfl⟩ := hv
  exact hp (heq ▸ hall q hq)

theorem chainRows_nodup (chain : List Nat) (h : chain.Nodup) : (chainRows chain).Nodup := by
  unfold chainRows
  exact List.Nodup.map (fun a b hab => by exact_mod_cast hab) h

theorem chainRows_filter (chain : List Nat) (KeepV : TIntV) :
    chainRows (chain.filter (fun (q : Nat) => decide ((q : Int) ∈ KeepV))) =
      (chainRows chain).filter (fun r => decide (r ∈ KeepV)) := by
  unfold chainRows
  rw [List.filter_map]
  rfl

theorem ValidRows_of_ChainInv (T : TTable) (chain : List Nat) (h : ChainInv T chain) :
    T.ValidRows = .ok (chainRows chain) := by
  unfold TTable.ValidRows
  rw [rowsVisited_of_ChainInv T chain h _ (by rw [h.2.1]; simp)]

/-- C15: on a well-formed table, when `Unique(Cols)` returns a table, running
`Unique(Cols)` on that table returns and leaves it as it is: the same valid
rows in the same logical order, and every other field unchanged. -/
theorem Unique_idempotent (T : TTable) (chain : List Nat) (Cols : TStrV) (T1 : TTable)
    (h : ChainInv T chain) (h1 : T.Unique Cols = .ok T1) :
    T1.Unique Cols = .ok T1 ∧
      ∃ chain1, ChainInv T1 chain1 ∧ chain1.Sublist chain ∧
        ∀ fuel, chain1.length ≤ fuel → T1.rowsVisited fuel = some (chainRows chain1) := by
  have hrows := ValidRows_of_ChainInv T chain h
  cases hpass : T.UniquePass Cols (chainRows chain) THash.empty [] with
  | error e => simp [TTable.Unique, hrows, hpass, bind, Except.bind] at h1
  | ok Res =>
    have hkeys := UniquePass_keys_ok T Cols _ _ _ Res hpass
    obtain ⟨G1, hG1⟩ := UniquePass_eq T Cols (chainRows chain) THash.empty [] hkeys
    rw [hpass] at hG1
    have hRes : Res.2 = T.pickFirst Cols (chainRows chain) [] := by
      have := congrArg Prod.snd (Except.ok.inj hG1)
      simpa [THash.empty] using this
    have hT1 : T1 = T.KeepSortedRows Res.2 := by
      simp only [TTable.Unique, hrows, hpass, bind, Except.bind, pure, Except.pure] at h1
      exact (Except.ok.inj h1).symm
    have hinv1 : ChainInv T1 (chain.filter (fun (q : Nat) => decide ((q : Int) ∈ Res.2))) := by
      rw [hT1]
      exact ChainInv_keepSortedRows T chain Res.2 h
    have hsub : (T.pickFirst Cols (chainRows chain) []).Sublist (chainRows chain) :=
      pickFirst_sublist T Cols _ _
    have hchain1 : chainRows (chain.filter (fun (q : Nat) => decide ((q : Int) ∈ Res.2))) =
        Res.2 := by
      rw [chainRows_filter, hRes]
      exact filter_mem_sublist _ _ hsub (chainRows_nodup chain h.2.2.1)
    have hsame : SameColumns T1 T := by
      rw [hT1]
      exact SameColumns_keepSortedRows T Res.2
    have hkeys1 : ∀ r ∈ Res.2, ∃ k, T1.GetGroupKey Cols r = .ok k := by
      intro r hr
      have hr1 : r ∈ chainRows chain := by
        rw [hRes] at hr
        exact hsub.subset hr
      obtain ⟨k, hk⟩ := hkeys r hr1
      exact ⟨k, by
        unfold TTable.GetGroupKey at hk ⊢
        rw [GetGroupKeyAux_congr T1 T hsame]
        exact hk⟩
    obtain ⟨G2, hG2⟩ := UniquePass_eq T1 Cols Res.2 THash.empty [] hkeys1
    have hpick : T1.pickFirst Cols Res.2 [] = Res.2 := by
      rw [pickFirst_congr T1 T hsame]
      conv_lhs => rw [hRes]
      rw [pickFirst_idem, ← hRes]
    have hrows1 := ValidRows_of_ChainInv T1 _ hinv1
    rw [hchain1] at hrows1
    refine ⟨?_, _, hinv1, List.filter_sublist _, ?_⟩
    · simp only [TTable.Unique, hrows1, hG2, bind, Except.bind, pure, Except.pure]
      have hU : ([] ++ T1.pickFirst Cols Res.2 (List.map Prod.fst
          (THash.empty : THash TGroupKey TIntV).KeyDatV)) = Res.2 := by
        simpa [THash.empty] using hpick
      rw [hU]
      congr 1
      apply KeepSortedRows_all T1 _ hinv1
      intro q hq
      rw [← hchain1]
      exact List.mem_map.mpr ⟨q, hq, rfl⟩
    · intro fuel hfuel
      exact rowsVisited_of_ChainInv T1 _ hinv1 fuel hfuel

theorem Unique_idempotent_witness :
    ChainInv scenarioTable [0, 1, 2] ∧
      scenarioTable.Unique ["A", "B"] = .ok (scenarioTable.KeepSortedRows [0, 1]) ∧
      (scenarioTable.KeepSortedRows [0, 1]).rowsVisited 2 = some [0, 1] ∧
      (scenarioTable.KeepSortedRows [0, 1]).Unique ["A", "B"] =
        .ok (scenarioTable.KeepSortedRows [0, 1]) :=
  ⟨ChainInv_append _ _ (ChainInv_append _ _ (ChainInv_append _ _ (ChainInv_New ⟨[]⟩))),
    by decide, by decide,
    (Unique_idempotent scenarioTable [0, 1, 2] ["A", "B"] (scenarioTable.KeepSortedRows [0, 1])
      (ChainInv_append _ _ (ChainInv_append _ _ (ChainInv_append _ _ (ChainInv_New ⟨[]⟩))))
      (by decide)).1⟩

/-! ## Theorems: `Join` -/

theorem KeyRows_spec (T : TTable) (Col : TStr) (Rows : TIntV)
    (h : ∀ r ∈ Rows, (T.GetCell Col r).toBool = true) :
    ∃ L, T.KeyRows Col Rows = .ok L ∧ L.map Prod.snd = Rows ∧
      (∀ kr ∈ L, T.GetCell Col kr.2 = .ok kr.1) ∧
      ∀ k, L.countP (fun kr => decide (kr.1 = k)) = T.keyCount Col Rows k := by
  induction Rows with
  | nil => exact ⟨[], rfl, rfl, by simp, by simp [TTable.keyCount]⟩
  | cons r Rows ih =>
    obtain ⟨L, hL, hsnd, hcell, hcount⟩ := ih (fun r1 h1 => h r1 (List.mem_cons_of_mem _ h1))
    have hr := h r (List.mem_cons_self _ _)
    cases hk : T.GetCell Col r with
    | error e => rw [hk] at hr; simp [Except.toBool] at hr
    | ok k0 =>
      refine ⟨(k0, r) :: L, ?_, by simp [hsnd], ?_, ?_⟩
      · simp only [TTable.KeyRows, hk, hL, bind, Except.bind, pure, Except.pure]
      · intro kr hkr
        rcases List.mem_cons.mp hkr with rfl | hkr
        · exact hk
        · exact hcell kr hkr
      · intro k
        have := hcount k
        simp only [TTable.keyCount] at this ⊢
        by_cases hkk : k0 = k
        · simp [List.countP_cons, hk, hkk, this]
        · have hne : ¬ (Except.ok k0 : Except TErr TCell) = Except.ok k := by
            intro heq
            exact hkk (Except.ok.inj heq)
          simp [List.countP_cons, hk, hkk, hne, this]

/-- Probing an index built from `KR2` returns one joint row per matching
pair. -/
theorem JoinProbe_spec (Index : THash TCell TIntV) (KR2 : List (TCell × TInt))
    (hinv : GroupingInv Index KR2) (KR1 : List (TCell × TInt)) :
    ∃ P, JoinProbe Index KR1 = .ok P ∧
      P.length = (KR1.map (fun kr => KR2.countP (fun e => decide (e.1 = kr.1)))).sum ∧
      ∀ p ∈ P, ∃ k, (k, p.1) ∈ KR1 ∧ (k, p.2) ∈ KR2 := by
  induction KR1 with
  | nil => exact ⟨[], rfl, by simp, by simp⟩
  | cons kr KR1 ih =>
    obtain ⟨P, hP, hlen, hmem⟩ := ih
    have hlk := hinv.2.1 kr.1
    have hcnt : (bucketRows kr.1 KR2).length = KR2.countP (fun e => decide (e.1 = kr.1)) := by
      simp [bucketRows, List.countP_eq_length_filter]
    by_cases hb : bucketRows kr.1 KR2 = []
    · rw [if_pos hb] at hlk
      have hkey : Index.IsKey kr.1 = false := by simp [THash.IsKey, hlk]
      refine ⟨P, ?_, ?_, ?_⟩
      · simp [JoinProbe, hkey, hP, bind, Except.bind, pure, Except.pure]
      · rw [hlen, List.map_cons, List.sum_cons, ← hcnt, hb]
        simp
      · intro p hp
        obtain ⟨k, h1, h2⟩ := hmem p hp
        exact ⟨k, List.mem_cons_of_mem _ h1, h2⟩
    · rw [if_neg hb] at hlk
      have hkey : Index.IsKey kr.1 = true := by simp [THash.IsKey, hlk]
      have hget : Index.GetDat kr.1 = .ok (bucketRows kr.1 KR2) := by simp [THash.GetDat, hlk]
      refine ⟨(bucketRows kr.1 KR2).map (fun RowIdx2 => (kr.2, RowIdx2)) ++ P, ?_, ?_, ?_⟩
      · simp [JoinProbe, hkey, hget, hP, bind, Except.bind, pure, Except.pure]
      · rw [List.length_append, List.length_map, hlen, List.map_cons, List.sum_cons, hcnt]
      · intro p hp
        rcases List.mem_append.mp hp with hp | hp
        · obtain ⟨r2, hr2, rfl⟩ := List.mem_map.mp hp
          exact ⟨kr.1, List.mem_cons_self _ _, (mem_bucketRows _ _ _).mp hr2⟩
        · obtain ⟨k, h1, h2⟩ := hmem p hp
          exact ⟨k, List.mem_cons_of_mem _ h1, h2⟩

theorem ChainInv_appendN {α : Type} (l : List α) :
    ∀ (T : TTable) (chain : List Nat), ChainInv T chain →
      ∃ chain1, ChainInv (l.foldl (fun J _ => J.UpdateTableForNewRow) T) chain1 ∧
        chain1.length = chain.length + l.length := by
  induction l with
  | nil => intro T chain h; exact ⟨chain, h, rfl⟩
  | cons x l ih =>
    intro T chain h
    obtain ⟨chain1, h1, hlen⟩ := ih T.UpdateTableForNewRow _ (ChainInv_append T chain h)
    refine ⟨chain1, h1, ?_⟩
    rw [hlen]
    simp
    omega

/-- A sum over a list of keys regroups by distinct key. -/
theorem sum_by_key {K : Type} [DecidableEq K] (L : List K) (f : K → Nat) (S : Finset K)
    (hS : ∀ k ∈ L, k ∈ S) : (L.map f).sum = Finset.sum S (fun k => L.count k * f k) := by
  rw [Finset.sum_list_map_count]
  simp only [smul_eq_mul]
  apply Finset.sum_subset
  · intro k hk
    exact hS k (List.mem_toFinset.mp hk)
  · intro k _ hk
    rw [List.mem_toFinset] at hk
    rw [List.count_eq_zero_of_not_mem hk, Nat.zero_mul]

/-- C13: for well-formed tables `A` and `B` whose valid rows all have a value
in the join columns, `A.Join(Col1, B, Col2)` returns a table whose number of
valid rows is the sum over the join-key values `k` of `a_k * b_k` (`a_k`,
`b_k` the numbers of valid rows of `A` and `B` with join-column value `k`);
a traversal of the output visits that many rows, one per joint row, and in
every joint row the join-column values of the two sides are equal. -/
theorem Join_cardinality (A B : TTable) (Col1 Col2 : TStr) (chainA chainB : List Nat)
    (hA : ChainInv A chainA) (hB : ChainInv B chainB)
    (hcA : ∀ r ∈ chainRows chainA, (A.GetCell Col1 r).toBool = true)
    (hcB : ∀ r ∈ chainRows chainB, (B.GetCell Col2 r).toBool = true) :
    ∃ J, A.Join Col1 B Col2 = .ok J ∧
      (∀ S : Finset TCell,
        (∀ r ∈ chainRows chainA, ∀ k, A.GetCell Col1 r = .ok k → k ∈ S) →
        J.Table.GetNumValidRows =
          ((Finset.sum S (fun k =>
            A.keyCount Col1 (chainRows chainA) k * B.keyCount Col2 (chainRows chainB) k) : Nat) :
            Int)) ∧
      (∃ rows,
        (∀ fuel, J.Table.GetNumValidRows.toNat ≤ fuel → J.Table.rowsVisited fuel = some rows) ∧
        (rows.length : Int) = J.Table.GetNumValidRows ∧ rows.length = J.JointRows.length) ∧
      ∀ p ∈ J.JointRows, ∃ k, A.GetCell Col1 p.1 = .ok k ∧ B.GetCell Col2 p.2 = .ok k := by
  have hrowsA := ValidRows_of_ChainInv A chainA hA
  have hrowsB := ValidRows_of_ChainInv B chainB hB
  obtain ⟨KR1, hKR1, hsnd1, hcell1, hcount1⟩ := KeyRows_spec A Col1 _ hcA
  obtain ⟨KR2, hKR2, _, hcell2, hcount2⟩ := KeyRows_spec B Col2 _ hcB
  obtain ⟨Index, hIndex, hinv⟩ := UpdateGroupingSeq_empty_inv KR2
  obtain ⟨P, hP, hlen, hmem⟩ := JoinProbe_spec Index KR2 hinv KR1
  obtain ⟨chain1, hinv1, hlen1⟩ := ChainInv_appendN P (TTable.New A.Context) []
    (ChainInv_New A.Context)
  have hvalid : (P.foldl (fun J _ => J.UpdateTableForNewRow) (TTable.New A.Context)).NumValidRows
      = (P.length : Int) := by
    rw [hinv1.2.1, hlen1]
    simp
  refine ⟨⟨P.foldl (fun J _ => J.UpdateTableForNewRow) (TTable.New A.Context), P⟩, ?_, ?_, ?_,
    ?_⟩
  · simp only [TTable.Join, hrowsA, hrowsB, hKR1, hKR2, hIndex, hP, bind, Except.bind, pure,
      Except.pure]
  · intro S hS
    show (P.foldl (fun J _ => J.UpdateTableForNewRow) (TTable.New A.Context)).NumValidRows = _
    rw [hvalid, hlen]
    have hmap : KR1.map (fun kr => KR2.countP (fun e => decide (e.1 = kr.1))) =
        (KR1.map Prod.fst).map (fun k => KR2.countP (fun e => decide (e.1 = k))) := by
      rw [List.map_map]
      rfl
    have hSk : ∀ k ∈ KR1.map Prod.fst, k ∈ S := by
      intro k hk
      obtain ⟨kr, hkr, rfl⟩ := List.mem_map.mp hk
      have hr : kr.2 ∈ chainRows chainA := by
        rw [← hsnd1]
        exact List.mem_map.mpr ⟨kr, hkr, rfl⟩
      exact hS kr.2 hr kr.1 (hcell1 kr hkr)
    rw [hmap, sum_by_key _ _ S hSk]
    congr 1
    apply Finset.sum_congr rfl
    intro k _
    have hc1 : (KR1.map Prod.fst).count k = KR1.countP (fun kr => decide (kr.1 = k)) := by
      rw [List.count, List.countP_map]
      apply List.countP_congr
      intro kr _
      simp
    rw [hc1, hcount1 k, hcount2 k]
  · refine ⟨chainRows chain1, ?_, ?_, ?_⟩
    · intro fuel hfuel
      apply rowsVisited_of_ChainInv _ chain1 hinv1 fuel
      have : (P.foldl (fun J _ => J.UpdateTableForNewRow) (TTable.New A.Context)).NumValidRows
          = (chain1.length : Int) := hinv1.2.1
      simp only [TTable.GetNumValidRows, this] at hfuel
      simpa using hfuel
    · show _ = (P.foldl (fun J _ => J.UpdateTableForNewRow) (TTable.New A.Context)).NumValidRows
      rw [hinv1.2.1]
      simp [chainRows]
    · simp [chainRows, hlen1]
  · intro p hp
    obtain ⟨k, h1, h2⟩ := hmem p hp
    exact ⟨k, hcell1 (k, p.1) h1, hcell2 (k, p.2) h2⟩

theorem Join_cardinality_witness :
    ChainInv scenarioTable [0, 1, 2] ∧
      (scenarioTable.SelfJoin "A").map (fun J => J.JointRows) =
        .ok [(0, 0), (0, 2), (1, 1), (2, 0), (2, 2)] ∧
      (scenarioTable.SelfJoin "A").map (fun J => J.Table.GetNumValidRows) = .ok 5 ∧
      ∃ J, scenarioTable.Join "A" scenarioTable "A" = .ok J ∧
        J.Table.GetNumValidRows =
          ((Finset.sum {TCell.int 1, TCell.int 2} (fun k =>
            scenarioTable.keyCount "A" (chainRows [0, 1, 2]) k *
              scenarioTable.keyCount "A" (chainRows [0, 1, 2]) k) : Nat) : Int) :=
  ⟨ChainInv_append _ _ (ChainInv_append _ _ (ChainInv_append _ _ (ChainInv_New ⟨[]⟩))),
    by decide, by decide,
    (Join_cardinality scenarioTable scenarioTable "A" "A" [0, 1, 2] [0, 1, 2]
      (ChainInv_append _ _ (ChainInv_append _ _ (ChainInv_append _ _ (ChainInv_New ⟨[]⟩))))
      (ChainInv_append _ _ (ChainInv_append _ _ (ChainInv_append _ _ (ChainInv_New ⟨[]⟩))))
      (by decide) (by decide)).imp
      (fun _ hJ => ⟨hJ.1, hJ.2.1 {TCell.int 1, TCell.int 2} (by
        intro r hr k hk
        simp only [chainRows, List.map_cons, List.map_nil, List.mem_cons, List.mem_singleton,
          List.not_mem_nil, or_false] at hr
        have h0 : scenarioTable.GetCell "A" ((0 : Nat) : Int) = .ok (.int 1) := by decide
        have h1 : scenarioTable.GetCell "A" ((1 : Nat) : Int) = .ok (.int 2) := by decide
        have h2 : scenarioTable.GetCell "A" ((2 : Nat) : Int) = .ok (.int 1) := by decide
        rcases hr with rfl | rfl | rfl
        · rw [h0] at hk; cases hk; decide
        · rw [h1] at hk; cases hk; decide
        · rw [h2] at hk; cases hk; decide)⟩)⟩

/-! ## Theorems: `TTableIterator` -/

theorem TTableIterator.afterNext_eq {P : Type} (V : List P) (k : Nat) :
    ∀ i : Nat, (⟨V, (i : Int)⟩ : TTableIterator P).afterNext k = ⟨V, ((i + k : Nat) : Int)⟩ := by
  induction k with
  | zero => intro i; rfl
  | succ k ih =>
    intro i
    have h := ih (i + 1)
    simp only [TTableIterator.afterNext, TTableIterator.Next]
    have e1 : ((i : Int) + 1) = ((i + 1 : Nat) : Int) := by push_cast; rfl
    rw [e1, h]
    congr 2
    omega

theorem TTableIterator.HasNext_iff {P : Type} (V : List P) (k : Nat) :
    (⟨V, (k : Int)⟩ : TTableIterator P).HasNext = true ↔ k < V.length := by
  simp [TTableIterator.HasNext, TVec.Len]

theorem TTableIterator.collect_from {P : Type} (suf : List P) :
    ∀ (pre : List P) (fuel : Nat), suf.length ≤ fuel →
      TTableIterator.collect fuel ⟨pre ++ suf, (pre.length : Int)⟩ =
        some (suf, ⟨pre ++ suf, ((pre ++ suf).length : Int)⟩) := by
  induction suf with
  | nil =>
    intro pre fuel _
    have hno : (⟨pre, (pre.length : Int)⟩ : TTableIterator P).HasNext = false := by
      simp [TTableIterator.HasNext, TVec.Len]
    cases fuel <;> simp [TTableIterator.collect, hno]
  | cons x suf ih =>
    intro pre fuel hfuel
    cases fuel with
    | zero => simp at hfuel
    | succ fuel =>
      have hyes : (⟨pre ++ x :: suf, (pre.length : Int)⟩ : TTableIterator P).HasNext = true := by
        simp [TTableIterator.HasNext, TVec.Len]
      have hnext : (⟨pre ++ x :: suf, (pre.length : Int)⟩ : TTableIterator P).Next =
          (.ok x, ⟨pre ++ x :: suf, ((pre ++ [x]).length : Int)⟩) := by
        simp only [TTableIterator.Next, TVec.get_append_length, List.length_append,
          List.length_singleton]
        congr 2
      have hstep := ih (pre ++ [x]) fuel (by simpa using hfuel)
      simp only [List.append_assoc, List.singleton_append] at hstep
      simp only [TTableIterator.collect, hyes, if_true, hnext, hstep, Option.map_some']

/-- C21: for an iterator constructed over a vector `V` of `n` tables, the
iterator after `k` calls of `Next()` has `HasNext()` true exactly for `k < n`;
whenever `HasNext()` is true, `Next()` is within bounds and returns the table
at position `k`; the loop calling `Next()` while `HasNext()` holds returns the
tables at positions `0, ..., n-1` in that order in `n` calls, after which
`HasNext()` is false. -/
theorem TTableIterator_traversal {P : Type} (V : List P) :
    (∀ k : Nat, ((TTableIterator.New V).afterNext k).HasNext = true ↔ k < V.length) ∧
      (∀ k : Nat, ((TTableIterator.New V).afterNext k).HasNext = true →
        ∃ Table, ((TTableIterator.New V).afterNext k).Next.1 = .ok Table ∧
          V[k]? = some Table) ∧
      (∀ fuel, V.length ≤ fuel →
        TTableIterator.collect fuel (TTableIterator.New V) =
          some (V, (TTableIterator.New V).afterNext V.length)) ∧
      ((TTableIterator.New V).afterNext V.length).HasNext = false := by
  have hstate : ∀ k : Nat, (TTableIterator.New V).afterNext k = ⟨V, (k : Int)⟩ := by
    intro k
    have h := TTableIterator.afterNext_eq V k 0
    simpa [TTableIterator.New] using h
  refine ⟨?_, ?_, ?_, ?_⟩
  · intro k
    rw [hstate k]
    exact TTableIterator.HasNext_iff V k
  · intro k hk
    rw [hstate k] at hk ⊢
    have hlt := (TTableIterator.HasNext_iff V k).mp hk
    refine ⟨V[k], ?_, List.getElem?_eq_getElem hlt⟩
    simp only [TTableIterator.Next]
    exact TVec.get_ofNat V k hlt
  · intro fuel hfuel
    rw [hstate V.length]
    have h := TTableIterator.collect_from V [] fuel hfuel
    simpa [TTableIterator.New] using h
  · rw [hstate V.length]
    simp [TTableIterator.HasNext, TVec.Len]

/-! ## Theorems: range safety and frame of `AggregateVector` -/

theorem TVec.get_last_cons {T : Type} (x : T) (V : List T) :
    ∃ r, TVec.get (x :: V) (TVec.Len (x :: V) - 1) = .ok r := by
  have hidx : TVec.Len (x :: V) - 1 = ((V.length : Nat) : Int) := by
    simp [TVec.Len]
  rw [hidx]
  exact ⟨_, TVec.get_ofNat (x :: V) V.length (by simp)⟩

theorem TVec.get_median_ok {T : Type} [LinearOrder T] (V : List T) (h : V ≠ []) :
    ∃ r, TVec.get (TVec.SortAsc V) (TVec.Len (TVec.SortAsc V) / 2) = .ok r := by
  have hlen : (TVec.SortAsc V).length = V.length := List.length_insertionSort _ V
  have hpos : 0 < V.length := List.length_pos.mpr h
  have hlt : V.length / 2 < (TVec.SortAsc V).length := by
    rw [hlen]; exact Nat.div_lt_self hpos (by decide)
  have hidx : TVec.Len (TVec.SortAsc V) / 2 = ((V.length / 2 : Nat) : Int) := by
    simp [TVec.Len, hlen]
  rw [hidx]
  exact ⟨_, TVec.get_ofNat _ _ hlt⟩

theorem AggregateVector_nonempty_ok {T : Type} [LinearOrder T] [Add T] (x : T) (V : List T)
    (Policy : TAttrAggr) : ∃ r, (AggregateVector (x :: V) Policy).1 = .ok r := by
  have hloop : ∀ body : T → T → T,
      (do let Res ← TVec.get (x :: V) 0
          aggrLoop (x :: V) body (aggrIters (x :: V)) 1 Res) = .ok (V.foldl body x) := by
    intro body
    rw [TVec.get_zero_cons]
    exact aggrLoop_cons body x V
  cases Policy with
  | aaMin => exact ⟨_, hloop _⟩
  | aaMax => exact ⟨_, hloop _⟩
  | aaFirst => exact ⟨x, TVec.get_zero_cons x V⟩
  | aaLast => exact TVec.get_last_cons x V
  | aaMean => exact ⟨_, hloop _⟩
  | aaMedian => exact TVec.get_median_ok (x :: V) (by simp)
  | aaSum => exact ⟨_, hloop _⟩
  | aaCount => exact ⟨x, TVec.get_zero_cons x V⟩

theorem AggregateVector_nil_error {T : Type} [LinearOrder T] [Add T] (Policy : TAttrAggr) :
    (AggregateVector ([] : List T) Policy).1 = .error .outOfBounds := by
  cases Policy with
  | aaMedian =>
    show TVec.get (TVec.SortAsc ([] : List T)) (TVec.Len (TVec.SortAsc ([] : List T)) / 2) = _
    simp [TVec.SortAsc, TVec.get_nil]
  | aaLast =>
    show TVec.get ([] : List T) (TVec.Len ([] : List T) - 1) = _
    exact TVec.get_nil _
  | _ => rfl

/-- C22: for every vector `V` and every policy, `AggregateVector` returns a
value, all element accesses being in range, if and only if `V` is non-empty;
on the empty vector every policy (first, last and count included) fails with
an out-of-range access, and for a non-empty `V` the median index `Len/2` is
in range. -/
theorem AggregateVector_returns_iff_nonempty {T : Type} [LinearOrder T] [Add T] (V : List T)
    (Policy : TAttrAggr) :
    ((∃ r, (AggregateVector V Policy).1 = .ok r) ↔ V ≠ []) ∧
      (AggregateVector ([] : List T) aaFirst).1 = .error .outOfBounds ∧
      (AggregateVector ([] : List T) aaLast).1 = .error .outOfBounds ∧
      (AggregateVector ([] : List T) aaCount).1 = .error .outOfBounds ∧
      (V ≠ [] → 0 ≤ TVec.Len (TVec.SortAsc V) / 2 ∧
        TVec.Len (TVec.SortAsc V) / 2 < TVec.Len (TVec.SortAsc V)) := by
  refine ⟨?_, AggregateVector_nil_error _, AggregateVector_nil_error _,
    AggregateVector_nil_error _, ?_⟩
  · cases V with
    | nil =>
      simp only [ne_eq, not_true_eq_false, iff_false, not_exists]
      intro r hr
      rw [AggregateVector_nil_error] at hr
      cases hr
    | cons x V =>
      simp only [ne_eq, reduceCtorEq, not_false_eq_true, iff_true]
      exact AggregateVector_nonempty_ok x V Policy
  · intro hV
    have hlen : (TVec.SortAsc V).length = V.length := List.length_insertionSort _ V
    have hpos : 0 < V.length := List.length_pos.mpr hV
    simp only [TVec.Len, hlen]
    have hpos1 : (0 : Int) < (V.length : Int) := by exact_mod_cast hpos
    constructor
    · exact Int.ediv_nonneg (Int.natCast_nonneg _) (by decide)
    · exact Int.ediv_lt_of_lt_mul (by decide) (by linarith)

theorem AggregateVector_returns_iff_nonempty_witness :
    (AggregateVector ([3, 1, 2, 4] : List Int) aaMedian).1 = .ok 3 ∧
      0 ≤ TVec.Len (TVec.SortAsc ([3, 1, 2, 4] : List Int)) / 2 ∧
      TVec.Len (TVec.SortAsc ([3, 1, 2, 4] : List Int)) / 2 <
        TVec.Len (TVec.SortAsc ([3, 1, 2, 4] : List Int)) :=
  ⟨by decide, (AggregateVector_returns_iff_nonempty [3, 1, 2, 4] aaMedian).2.2.2.2 (by decide)⟩

/-- C23: `AggregateVector` with any policy other than median leaves the
caller's vector `V` unchanged, while the median policy leaves it holding the
ascending sorted permutation of its original contents. -/
theorem AggregateVector_frame {T : Type} [LinearOrder T] [Add T] (V : List T) :
    (∀ Policy, Policy ≠ aaMedian → (AggregateVector V Policy).2 = V) ∧
      ((AggregateVector V aaMedian).2).Sorted (fun a b => a ≤ b) ∧
      ((AggregateVector V aaMedian).2).Perm V := by
  refine ⟨?_, List.sorted_insertionSort _ V, List.perm_insertionSort _ V⟩
  intro Policy hP
  cases Policy with
  | aaMedian => exact absurd rfl hP
  | _ => rfl

theorem AggregateVector_frame_witness :
    (AggregateVector ([3, 1, 2] : List Int) aaMax).2 = [3, 1, 2] ∧
      (AggregateVector ([3, 1, 2] : List Int) aaMedian).2 = [1, 2, 3] :=
  ⟨(AggregateVector_frame [3, 1, 2]).1 aaMax (by decide), by decide⟩

/-! ## Theorems: copy constructor -/

/-- C24 (code defect): whatever values default initialization gives, the copy
constructor copies the counts, `FirstValidRow`, the `Next` chain, the schema,
the column arrays and the column-name map, but leaves `LastValidRow`,
`IdColName` and `RowIdMap` default-initialized: the copies of
`threeRowTable` (`LastValidRow = 2`) and of the empty table
(`LastValidRow = -1`) have the same `LastValidRow`, so the copy does not have
the `LastValidRow` of every table, and likewise for the permanent-id column
name and map. -/
theorem Copy_leaves_members_default (Default : TTable) :
    (∀ T : TTable,
      (TTable.Copy Default T).NumRows = T.NumRows ∧
      (TTable.Copy Default T).NumValidRows = T.NumValidRows ∧
      (TTable.Copy Default T).FirstValidRow = T.FirstValidRow ∧
      (TTable.Copy Default T).Next = T.Next ∧
      (TTable.Copy Default T).S = T.S ∧
      (TTable.Copy Default T).IntCols = T.IntCols ∧
      (TTable.Copy Default T).FltCols = T.FltCols ∧
      (TTable.Copy Default T).StrColMaps = T.StrColMaps ∧
      (TTable.Copy Default T).ColTypeMap = T.ColTypeMap) ∧
    (∀ T : TTable,
      (TTable.Copy Default T).LastValidRow = Default.LastValidRow ∧
      (TTable.Copy Default T).IdColName = Default.IdColName ∧
      (TTable.Copy Default T).RowIdMap = Default.RowIdMap) ∧
    threeRowTable.LastValidRow = 2 ∧ (TTable.New ⟨[]⟩).LastValidRow = -1 ∧
    (TTable.Copy Default threeRowTable).LastValidRow =
      (TTable.Copy Default (TTable.New ⟨[]⟩)).LastValidRow ∧
    ¬ (∀ T : TTable, (TTable.Copy Default T).LastValidRow = T.LastValidRow) ∧
    ¬ (∀ T : TTable, (TTable.Copy Default T).IdColName = T.IdColName) ∧
    ¬ (∀ T : TTable, (TTable.Copy Default T).RowIdMap = T.RowIdMap) := by
  refine ⟨fun T => ⟨rfl, rfl, rfl, rfl, rfl, rfl, rfl, rfl, rfl⟩, fun T => ⟨rfl, rfl, rfl⟩,
    by decide, by decide, rfl, ?_, ?_, ?_⟩
  · intro h
    have h1 : Default.LastValidRow = threeRowTable.LastValidRow := h threeRowTable
    have h2 : Default.LastValidRow = (TTable.New ⟨[]⟩).LastValidRow := h (TTable.New ⟨[]⟩)
    rw [h1] at h2
    exact absurd h2 (by decide)
  · intro h
    have h1 : Default.IdColName = idTableA.IdColName := h idTableA
    have h2 : Default.IdColName = idTableB.IdColName := h idTableB
    rw [h1] at h2
    exact absurd h2 (by decide)
  · intro h
    have h1 : Default.RowIdMap = idTableA.RowIdMap := h idTableA
    have h2 : Default.RowIdMap = idTableB.RowIdMap := h idTableB
    rw [h1] at h2
    exact absurd h2 (by decide)

/-! ## Theorems: `CheckAndAddFltNode` -/

theorem numbered_map_fst {K : Type} (Keys : List K) :
    ∀ s, (numbered Keys s).map Prod.fst = Keys := by
  induction Keys with
  | nil => intro s; rfl
  | cons k Keys ih => intro s; simp [numbered, ih]

theorem numbered_length {K : Type} (Keys : List K) :
    ∀ s, (numbered Keys s).length = Keys.length := by
  induction Keys with
  | nil => intro s; rfl
  | cons k Keys ih => intro s; simp [numbered, ih]

theorem numbered_append {K : Type} (A B : List K) :
    ∀ s, numbered (A ++ B) s = numbered A s ++ numbered B (s + A.length) := by
  induction A with
  | nil => intro s; simp [numbered]
  | cons a A ih =>
    intro s
    have e : s + 1 + A.length = s + (A.length + 1) := by omega
    show (a, (s : Int)) :: numbered (A ++ B) (s + 1) =
      (a, (s : Int)) :: numbered A (s + 1) ++ numbered B (s + (A.length + 1))
    rw [ih (s + 1), e]
    rfl

theorem THash.replace_append_single {K D : Type} [DecidableEq K] (k : K) (d0 d : D)
    (L : List (K × D)) (h : k ∉ L.map Prod.fst) :
    THash.replace k d (L ++ [(k, d0)]) = L ++ [(k, d)] := by
  induction L with
  | nil => simp [THash.replace]
  | cons e es ih =>
    simp only [List.map_cons, List.mem_cons, not_or] at h
    have hne : ¬ e.1 = k := fun heq => h.1 heq.symm
    simp [THash.replace, hne, ih h.2]

theorem THash.lookup_append_left {K D : Type} [DecidableEq K] (k : K) (d : D)
    (L M : List (K × D)) (h : THash.lookup k L = some d) :
    THash.lookup k (L ++ M) = some d := by
  induction L with
  | nil => simp [THash.lookup] at h
  | cons e es ih =>
    by_cases hk : e.1 = k
    · simp only [THash.lookup, hk, if_true, List.cons_append] at h ⊢
      exact h
    · simp only [THash.lookup, hk, if_false, List.cons_append] at h ⊢
      exact ih h

/-- One call of `CheckAndAddFltNode` on a map that numbers the distinct
values `Seen` from `0`: a value seen before gets its stored id and nothing
changes; a new value gets the id `|Seen|`, is added to the graph under that
id and appended to the map. -/
theorem CheckAndAddFltNode_step {G : Type} (AddNode : G → TInt → G) (Graph : G)
    (Seen : List TFlt) (v : TFlt) :
    (v ∈ Seen →
      ∃ Id, CheckAndAddFltNode AddNode Graph ⟨numbered Seen 0⟩ v =
          .ok (Id, Graph, ⟨numbered Seen 0⟩) ∧
        THash.lookup v (numbered Seen 0) = some Id) ∧
    (v ∉ Seen →
      CheckAndAddFltNode AddNode Graph ⟨numbered Seen 0⟩ v =
        .ok ((Seen.length : Int), AddNode Graph (Seen.length : Int),
          ⟨numbered (Seen ++ [v]) 0⟩)) := by
  have hkeys : (numbered Seen 0).map Prod.fst = Seen := numbered_map_fst Seen 0
  have hmem := THash.IsKey_iff_mem (⟨numbered Seen 0⟩ : THash TFlt TInt) v
  simp only [hkeys] at hmem
  constructor
  · intro hv
    have hkey : (⟨numbered Seen 0⟩ : THash TFlt TInt).IsKey v = true := hmem.mpr hv
    cases hl : THash.lookup v (numbered Seen 0) with
    | none => simp [THash.IsKey, hl] at hkey
    | some Id =>
      refine ⟨Id, ?_, rfl⟩
      simp [CheckAndAddFltNode, hkey, THash.GetDat, hl, bind, Except.bind, pure, Except.pure]
  · intro hv
    have hkey : (⟨numbered Seen 0⟩ : THash TFlt TInt).IsKey v = false := by
      cases hb : (⟨numbered Seen 0⟩ : THash TFlt TInt).IsKey v with
      | false => rfl
      | true => exact absurd (hmem.mp hb) hv
    have hnot : v ∉ (numbered Seen 0).map Prod.fst := by rw [hkeys]; exact hv
    have hadd : (⟨numbered Seen 0⟩ : THash TFlt TInt).AddKey v =
        ⟨numbered Seen 0 ++ [(v, default)]⟩ := by
      simp [THash.AddKey, hkey]
    have hkey2 : (⟨numbered Seen 0 ++ [(v, default)]⟩ : THash TFlt TInt).IsKey v = true := by
      rw [THash.IsKey_iff_mem]
      simp
    have hdat : (⟨numbered Seen 0 ++ [(v, default)]⟩ : THash TFlt TInt).AddDat v
        (Seen.length : Int) = ⟨numbered (Seen ++ [v]) 0⟩ := by
      simp only [THash.AddDat, hkey2, if_true]
      rw [THash.replace_append_single v _ _ _ hnot, numbered_append]
      simp [numbered]
    simp only [CheckAndAddFltNode, hkey, Bool.not_false, if_true, hadd, hdat, THash.Len,
      numbered_length, pure, Except.pure]

theorem numbered_map_snd {K : Type} (Keys : List K) :
    ∀ s, (numbered Keys s).map Prod.snd =
      (List.range' s Keys.length).map (fun (i : Nat) => (i : Int)) := by
  induction Keys with
  | nil => intro s; rfl
  | cons k Keys ih =>
    intro s
    simp [numbered, ih, List.range'_succ]

theorem firstSeen_fold_props (Rest : List TFlt) :
    ∀ Seen : List TFlt, Seen.Nodup →
      (Rest.foldl (fun Seen v => if v ∈ Seen then Seen else Seen ++ [v]) Seen).Nodup ∧
      (∃ extra, Rest.foldl (fun Seen v => if v ∈ Seen then Seen else Seen ++ [v]) Seen =
        Seen ++ extra) ∧
      ∀ v, v ∈ Rest.foldl (fun Seen v => if v ∈ Seen then Seen else Seen ++ [v]) Seen ↔
        v ∈ Seen ∨ v ∈ Rest := by
  induction Rest with
  | nil => intro Seen h; exact ⟨h, ⟨[], by simp⟩, by simp⟩
  | cons x Rest ih =>
    intro Seen h
    by_cases hx : x ∈ Seen
    · obtain ⟨h1, h2, h3⟩ := ih Seen h
      simp only [List.foldl_cons, hx, if_true]
      refine ⟨h1, h2, ?_⟩
      intro v
      rw [h3 v]
      constructor
      · rintro (hv | hv)
        · exact Or.inl hv
        · exact Or.inr (List.mem_cons_of_mem _ hv)
      · rintro (hv | hv)
        · exact Or.inl hv
        · rcases List.mem_cons.mp hv with rfl | hv
          · exact Or.inl hx
          · exact Or.inr hv
    · have hnd : (Seen ++ [x]).Nodup := by
        rw [List.nodup_append]
        refine ⟨h, by simp, ?_⟩
        intro a ha hb
        simp only [List.mem_singleton] at hb
        exact hx (hb ▸ ha)
      obtain ⟨h1, ⟨extra, h2⟩, h3⟩ := ih (Seen ++ [x]) hnd
      simp only [List.foldl_cons, hx, if_false]
      refine ⟨h1, ⟨x :: extra, by rw [h2]; simp⟩, ?_⟩
      intro v
      rw [h3 v]
      simp only [List.mem_append, List.mem_singleton, List.mem_cons]
      tauto

/-- A sequence of calls on a map that numbers the distinct values `Seen`
returns, numbers the values in first-seen order, and returns for each value
the id the final map holds for it. -/
theorem CheckAndAddFltNodeSeq_spec {G : Type} (AddNode : G → TInt → G) (Rest : List TFlt) :
    ∀ (Seen : List TFlt) (Graph : G), Seen.Nodup →
      ∃ Ids Graph1,
        CheckAndAddFltNodeSeq AddNode Graph ⟨numbered Seen 0⟩ Rest =
          .ok (Ids, Graph1,
            ⟨numbered (Rest.foldl (fun Seen v => if v ∈ Seen then Seen else Seen ++ [v]) Seen)
              0⟩) ∧
        Ids.length = Rest.length ∧
        ∀ p ∈ Rest.zip Ids,
          THash.lookup p.1
            (numbered (Rest.foldl (fun Seen v => if v ∈ Seen then Seen else Seen ++ [v]) Seen)
              0) = some p.2 := by
  induction Rest with
  | nil => intro Seen Graph _; exact ⟨[], Graph, rfl, rfl, by simp⟩
  | cons v Rest ih =>
    intro Seen Graph hnd
    obtain ⟨hin, hout⟩ := CheckAndAddFltNode_step AddNode Graph Seen v
    by_cases hv : v ∈ Seen
    · obtain ⟨Id, hcall, hlk⟩ := hin hv
      obtain ⟨Ids, Graph1, hseq, hlen, hids⟩ := ih Seen Graph hnd
      obtain ⟨_, ⟨extra, hext⟩, _⟩ := firstSeen_fold_props Rest Seen hnd
      refine ⟨Id :: Ids, Graph1, ?_, by simp [hlen], ?_⟩
      · simp only [CheckAndAddFltNodeSeq, hcall, hseq, List.foldl_cons, hv, if_true, bind,
          Except.bind, pure, Except.pure]
      · intro p hp
        simp only [List.foldl_cons, hv, if_true]
        rcases List.mem_cons.mp (by simpa using hp) with hp | hp
        · rw [hp, hext, numbered_append]
          exact THash.lookup_append_left _ _ _ _ hlk
        · exact hids p hp
    · have hnd1 : (Seen ++ [v]).Nodup := by
        rw [List.nodup_append]
        refine ⟨hnd, by simp, ?_⟩
        intro a ha hb
        simp only [List.mem_singleton] at hb
        exact hv (hb ▸ ha)
      have hcall := hout hv
      obtain ⟨Ids, Graph1, hseq, hlen, hids⟩ :=
        ih (Seen ++ [v]) (AddNode Graph (Seen.length : Int)) hnd1
      obtain ⟨_, ⟨extra, hext⟩, _⟩ := firstSeen_fold_props Rest (Seen ++ [v]) hnd1
      refine ⟨(Seen.length : Int) :: Ids, Graph1, ?_, by simp [hlen], ?_⟩
      · simp only [CheckAndAddFltNodeSeq, hcall, hseq, List.foldl_cons, hv, if_false, bind,
          Except.bind, pure, Except.pure]
      · intro p hp
        simp only [List.foldl_cons, hv, if_false]
        rcases List.mem_cons.mp (by simpa using hp) with hp | hp
        · rw [hp, hext, numbered_append]
          apply THash.lookup_append_left
          have hnone : THash.lookup v (numbered Seen 0) = none := by
            rw [THash.lookup_eq_none_iff, numbered_map_fst]
            exact hv
          rw [numbered_append]
          show THash.lookup v (numbered Seen 0 ++ [(v, ((0 + Seen.length : Nat) : Int))]) = _
          rw [THash.lookup_append_single, hnone]
          simp
        · exact hids p hp

/-- C25: starting from an empty `NodeVals` map, every sequence of
`CheckAndAddFltNode` calls returns; afterwards the map pairs the distinct
values seen so far, in first-seen order, with the ids `0, ..., k-1`; each call
returned the id the map holds for its argument. On such a map a call with a
value seen before returns its stored id and leaves map and graph unchanged,
and a call with a new value returns `k`, adds node `k` to the graph and
extends the map by that value. -/
theorem CheckAndAddFltNode_numbering {G : Type} (AddNode : G → TInt → G) (Graph : G)
    (Vals : List TFlt) :
    (∃ Ids Graph1,
      CheckAndAddFltNodeSeq AddNode Graph THash.empty Vals =
        .ok (Ids, Graph1, ⟨numbered (firstSeen Vals) 0⟩) ∧
      Ids.length = Vals.length ∧
      ∀ p ∈ Vals.zip Ids,
        (⟨numbered (firstSeen Vals) 0⟩ : THash TFlt TInt).GetDat p.1 = .ok p.2) ∧
    (firstSeen Vals).Nodup ∧ (∀ v, v ∈ firstSeen Vals ↔ v ∈ Vals) ∧
    (numbered (firstSeen Vals) 0).map Prod.fst = firstSeen Vals ∧
    (numbered (firstSeen Vals) 0).map Prod.snd =
      (List.range (firstSeen Vals).length).map (fun (i : Nat) => (i : Int)) ∧
    (∀ (Graph2 : G) (v : TFlt),
      (v ∈ Vals →
        ∃ Id, CheckAndAddFltNode AddNode Graph2 ⟨numbered (firstSeen Vals) 0⟩ v =
            .ok (Id, Graph2, ⟨numbered (firstSeen Vals) 0⟩) ∧
          (⟨numbered (firstSeen Vals) 0⟩ : THash TFlt TInt).GetDat v = .ok Id) ∧
      (v ∉ Vals →
        CheckAndAddFltNode AddNode Graph2 ⟨numbered (firstSeen Vals) 0⟩ v =
          .ok (((firstSeen Vals).length : Int),
            AddNode Graph2 ((firstSeen Vals).length : Int),
            ⟨numbered (firstSeen (Vals ++ [v])) 0⟩))) := by
  obtain ⟨hnd, _, hmem⟩ := firstSeen_fold_props Vals [] List.nodup_nil
  have hmem1 : ∀ v, v ∈ firstSeen Vals ↔ v ∈ Vals := by
    intro v
    have := hmem v
    simpa [firstSeen] using this
  obtain ⟨Ids, Graph1, hseq, hlen, hids⟩ :=
    CheckAndAddFltNodeSeq_spec AddNode Vals [] Graph List.nodup_nil
  refine ⟨⟨Ids, Graph1, hseq, hlen, ?_⟩, hnd, hmem1, numbered_map_fst _ 0, ?_, ?_⟩
  · intro p hp
    have := hids p hp
    simp only [THash.GetDat, firstSeen, this]
  · rw [numbered_map_snd, List.range_eq_range']
  · intro Graph2 v
    obtain ⟨hin, hout⟩ := CheckAndAddFltNode_step AddNode Graph2 (firstSeen Vals) v
    constructor
    · intro hv
      obtain ⟨Id, hcall, hlk⟩ := hin ((hmem1 v).mpr hv)
      exact ⟨Id, hcall, by simp only [THash.GetDat, hlk]⟩
    · intro hv
      have hv1 : v ∉ firstSeen Vals := fun h => hv ((hmem1 v).mp h)
      have hfs : firstSeen (Vals ++ [v]) = firstSeen Vals ++ [v] := by
        simp only [firstSeen, List.foldl_append, List.foldl_cons, List.foldl_nil]
        exact if_neg hv1
      rw [hfs]
      exact hout hv1

theorem CheckAndAddFltNode_numbering_witness :
    CheckAndAddFltNodeSeq (fun (g : TIntV) n => g ++ [n]) [] THash.empty
        [5, 3, 5, 7, 3] =
      .ok ([0, 1, 0, 2, 1], [0, 1, 2], ⟨[(5, 0), (3, 1), (7, 2)]⟩) ∧
      ∃ Id, CheckAndAddFltNode (fun (g : TIntV) n => g ++ [n]) [0, 1, 2]
          ⟨numbered (firstSeen [5, 3, 5, 7, 3]) 0⟩ 3 =
          .ok (Id, [0, 1, 2], ⟨numbered (firstSeen [5, 3, 5, 7, 3]) 0⟩) ∧
        (⟨numbered (firstSeen [5, 3, 5, 7, 3]) 0⟩ : THash TFlt TInt).GetDat 3 = .ok Id :=
  ⟨by decide,
    ((CheckAndAddFltNode_numbering (fun (g : TIntV) n => g ++ [n]) []
      [5, 3, 5, 7, 3]).2.2.2.2.2 [0, 1, 2] 3).1 (by decide)⟩

end Snap
